import Mathlib

/-
Verification development for the TwoPaCo junction-detection pipeline
(`src/graphconstructor/vertexenumerator.h`, `src/common/junctionpositionapi.h`).

The C++ sources are embedded shallowly: strings become `List Char`, the
unsigned machine integers become `Nat` with explicit reduction modulo `2^64`
where the C++ type wraps, the approximate Cuckoo filters become abstract
membership oracles `Nat → Bool`, and the worker loops become structurally
recursive functions over the task payload.  Components of the repository that
are referenced but whose sources are not available (`DnaChar`,
`CandidateOccurence`, `BifurcationStorage`, the `Task` structure and the
temp-file layer of the Cuckoo filter) are modelled from the specification;
each such definition carries a doc comment starting with
`Modelled from the spec:`.
-/

set_option autoImplicit false

namespace TwoPaCo

/-! ### Characters and DNA primitives -/

/-- Modelled from the spec: `DnaChar::IsDefinite`.  A base is *definite*
when it is one of `A`, `C`, `G`, `T`; every other byte (in particular the
sentinel `N`) is indefinite. -/
def isDefinite (c : Char) : Bool :=
  c == 'A' || c == 'C' || c == 'G' || c == 'T'

/-- Modelled from the spec: `DnaChar::MakeUpChar`.  "Each definite base maps
to a 2-bit code (A=0, C=1, G=2, T=3)."  The value is modelled as a natural
number; other characters map to 0. -/
def makeUpChar (c : Char) : Nat :=
  if c = 'C' then 1 else if c = 'G' then 2 else if c = 'T' then 3 else 0

/-- Modelled from the spec: `DnaChar::ReverseChar`, the Watson–Crick
complement of a single base (`A↔T`, `C↔G`); any other character, in
particular `N`, is its own complement. -/
def reverseChar (c : Char) : Char :=
  if c = 'A' then 'T' else if c = 'T' then 'A' else
  if c = 'C' then 'G' else if c = 'G' then 'C' else c

/-- Modelled from the spec: `DnaChar::ReverseCompliment` — the reverse of
the character-wise complement of a string. -/
def revCompStr (s : List Char) : List Char :=
  (s.map reverseChar).reverse

/-- Modelled from the spec: `DnaChar::LITERAL`, the alphabet of definite
bases probed by the candidate check. -/
def LITERAL : List Char := ['A', 'C', 'G', 'T']

/-- A string is definite when all of its characters are. -/
def DefiniteB (s : List Char) : Bool := s.all isDefinite

/-- Character count of definite bases, the quantity the workers maintain
incrementally in `definiteCount` (asserted against this recomputation at
`vertexenumerator.h:578`). -/
def dcount (s : List Char) : Nat := s.countP isDefinite

/-- Three-way lexicographic comparison of equal-or-unequal-length byte
strings, as performed by `std::string::compare` in `getCanonicalVal`. -/
def lexCmp : List Char → List Char → Ordering
  | [], [] => .eq
  | [], _ :: _ => .lt
  | _ :: _, [] => .gt
  | a :: as, b :: bs =>
    if a.toNat < b.toNat then .lt
    else if b.toNat < a.toNat then .gt
    else lexCmp as bs

/-! ### The integer encoding of an edge (`FilterFillerWorker::convertToInt`,
`vertexenumerator.h:1055-1061`).  The accumulator is a C++ `uint64_t`, so the
running sum is reduced modulo `2^64` at every step. -/

def convGo : List Char → Nat → Nat → Nat
  | [], _, ret => ret
  | c :: cs, i, ret => convGo cs (i + 1) ((ret + ((makeUpChar c &&& 3) <<< (2 * i))) % 2 ^ 64)

/-- Embedding of `convertToInt` (`vertexenumerator.h:1055-1061`): positional
2-bits-per-base packing of an edge string into a 64-bit accumulator. -/
def convertToInt (edge : List Char) : Nat := convGo edge 0 0

/-- Embedding of `getCanonicalVal` (`vertexenumerator.h:1046-1054`): the
packed value of the edge or of its reverse complement, whichever is
lexicographically smaller as a string. -/
def getCanonicalVal (edge : List Char) : Nat :=
  if lexCmp edge (revCompStr edge) = .gt then convertToInt (revCompStr edge)
  else convertToInt edge

/-- The lexicographically smaller of two strings (ties resolved to the
first), mirroring the branch structure of `getCanonicalVal`. -/
def lexMin (a b : List Char) : List Char :=
  if lexCmp a b = .gt then b else a

/-- The canonical form of a k-mer: the lexicographic min of the string and
its reverse complement (spec §4.1). -/
def canonicalStr (v : List Char) : List Char := lexMin v (revCompStr v)

/-- Embedding of `Within` (`vertexenumerator.h:431-434`). -/
def Within (hvalue low high : Nat) : Bool :=
  decide (low ≤ hvalue) && decide (hvalue ≤ high)

/-- The claim-side positional encoding: base `i` occupies bits `2i..2i+1`,
that is, the string encodes to `∑ i, code(s[i]) * 4^i`. -/
def specEncode (s : List Char) : Nat :=
  ∑ i ∈ Finset.range s.length, makeUpChar (s.getD i 'A') * 4 ^ i

/-! ### Task payloads

The distributor (`DistributeTasks`, `vertexenumerator.h:1065-1155`) replaces
every non-ACGT byte by `N`, seeds the first buffer of a record with a single
leading `N` and appends a trailing `N` to the final buffer.  For a record
short enough to fit in one task the payload is therefore `N·s·N`. -/

/-- Byte normalization performed by the distributor:
`DnaChar::IsDefinite(ch) ? ch : 'N'` (`vertexenumerator.h:1111`). -/
def normalizeChar (c : Char) : Char := if isDefinite c then c else 'N'

def normalizeStr (s : List Char) : List Char := s.map normalizeChar

/-- The payload of the single task of a record that fits in one chunk:
leading sentinel, normalized record, trailing sentinel. -/
def taskOf (s : List Char) : List Char := 'N' :: (normalizeStr s ++ ['N'])

/-- The k-window of a payload at position `p`: `task.str.substr(pos, k)`. -/
def winAt (t : List Char) (p k : Nat) : List Char := (t.drop p).take k

/-- The character preceding the window: `task.str[pos - 1]`. -/
def prevAt (t : List Char) (p : Nat) : Char := t.getD (p - 1) 'N'

/-- The character following the window: `task.str[pos + vertexLength]`. -/
def nextAt (t : List Char) (p k : Nat) : Char := t.getD (p + k) 'N'

/-! ### Pass 1b: the candidate check (`CandidateCheckingWorker::operator()`,
`vertexenumerator.h:551-640`). -/

/-- One probe of the in-degree loop: the candidate predecessor `c` counts
when it equals the observed preceding character or when the edge filter `F`
contains the canonical value of `c·vertex` (`vertexenumerator.h:590`). -/
def probeInB (F : Nat → Bool) (v : List Char) (pc c : Char) : Bool :=
  c == pc || F (getCanonicalVal (c :: v))

/-- One probe of the out-degree loop: `c` counts when it equals the observed
following character or when the filter contains the canonical value of
`vertex·c` (`vertexenumerator.h:595`). -/
def probeOutB (F : Nat → Bool) (v : List Char) (nc c : Char) : Bool :=
  c == nc || F (getCanonicalVal (v ++ [c]))

/-- The probing loop over `DnaChar::LITERAL` with its early exit: iteration
continues only while `inCount < 2 && outCount < 2`
(`vertexenumerator.h:583-599`). -/
def cLoop (F : Nat → Bool) (v : List Char) (pc nc : Char) :
    List Char → Nat → Nat → Nat × Nat
  | [], i, o => (i, o)
  | c :: cs, i, o =>
    if i < 2 ∧ o < 2 then
      cLoop F v pc nc cs (i + (if probeInB F v pc c then 1 else 0))
        (o + (if probeOutB F v nc c then 1 else 0))
    else (i, o)

/-- The pair `(inCount, outCount)` computed by the candidate check at one
window: counts start at 2 when the corresponding flank is indefinite
(`vertexenumerator.h:581-582`) and are then incremented by the probing
loop. -/
def codeCounts (F : Nat → Bool) (v : List Char) (pc nc : Char) : Nat × Nat :=
  cLoop F v pc nc LITERAL (if isDefinite pc then 0 else 2)
    (if isDefinite nc then 0 else 2)

/-- The marking condition `inCount > 1 || outCount > 1`
(`vertexenumerator.h:601`). -/
def codeMarkB (F : Nat → Bool) (v : List Char) (pc nc : Char) : Bool :=
  decide (1 < (codeCounts F v pc nc).1) || decide (1 < (codeCounts F v pc nc).2)

/-- The update of the incrementally carried `definiteCount` when the window
slides from `pos` to `pos + 1` (`vertexenumerator.h:614`). -/
def dcStep (t : List Char) (k p dc : Nat) : Nat :=
  dc + (if isDefinite (t.getD (p + k) 'N') then 1 else 0) -
    (if isDefinite (t.getD p 'N') then 1 else 0)

/-- One iteration of the position loop of Pass 1b
(`vertexenumerator.h:573-620`): record the position when the window is fully
definite and the counts pass the marking condition, then slide the
definite-character count. -/
def marksStep (F : Nat → Bool) (k : Nat) (t : List Char)
    (st : Nat × List Nat) (p : Nat) : Nat × List Nat :=
  let acc' :=
    if st.1 = k ∧ codeMarkB F (winAt t p k) (prevAt t p) (nextAt t p k) then
      st.2 ++ [p]
    else st.2
  (dcStep t k p st.1, acc')

/-- The candidate positions recorded for one chunk by Pass 1b.  The C++ loop
starts at `pos = 1` and runs while `pos + edgeLength < task.str.size()`
holds after the body, i.e. it visits exactly the positions
`1 .. task.str.size() - k - 2 + 1`; chunks shorter than `k + 2` record
nothing (`vertexenumerator.h:563-570`). -/
def chunkMarks (F : Nat → Bool) (k : Nat) (t : List Char) : List Nat :=
  if t.length < k + 2 then []
  else
    ((List.range' 1 (t.length - (k + 1))).foldl (marksStep F k t)
      (dcount (winAt t 1 k), [])).2

/-- The claim-side in-degree count at a window: starts at 2 when the
preceding flank is indefinite and 0 otherwise, and adds one for every
`c ∈ {A,C,G,T}` that passes the predecessor probe (no early exit). -/
def inFull (F : Nat → Bool) (t : List Char) (p k : Nat) : Nat :=
  (if isDefinite (prevAt t p) then 0 else 2) +
    LITERAL.countP (probeInB F (winAt t p k) (prevAt t p))

/-- The claim-side out-degree count at a window, symmetric to `inFull`. -/
def outFull (F : Nat → Bool) (t : List Char) (p k : Nat) : Nat :=
  (if isDefinite (nextAt t p k) then 0 else 2) +
    LITERAL.countP (probeOutB F (winAt t p k) (nextAt t p k))

/-! ### Pass 1a: filling the edge filter (`FilterFillerWorker::operator()`,
`vertexenumerator.h:956-1039`). -/

/-- The canonical edge values inserted at one position by Pass 1a when the
window is fully definite: the observed edge `vertex·next` (or the two dummy
edges `vertex·A`, `vertex·T` when the following character is indefinite,
`vertexenumerator.h:986-1010`), plus the dummy predecessor edges `A·vertex`,
`T·vertex` when `pos > 0` and the preceding character is indefinite
(`vertexenumerator.h:1011-1025`). -/
def fillAt (k : Nat) (t : List Char) (p : Nat) : List Nat :=
  let v := winAt t p k
  let nc := t.getD (p + k) 'N'
  (if isDefinite nc then [getCanonicalVal (v ++ [nc])]
   else [getCanonicalVal (v ++ ['A']), getCanonicalVal (v ++ ['T'])]) ++
    (if 0 < p ∧ ¬ isDefinite (t.getD (p - 1) 'N') then
      [getCanonicalVal ('A' :: v), getCanonicalVal ('T' :: v)]
     else [])

/-- One iteration of the position loop of Pass 1a
(`vertexenumerator.h:978-1036`). -/
def fillStep (k : Nat) (t : List Char) (st : Nat × List Nat) (p : Nat) :
    Nat × List Nat :=
  (dcStep t k p st.1, if st.1 = k then st.2 ++ fillAt k t p else st.2)

/-- The canonical edge values inserted into the round's Cuckoo filter for one
chunk.  The C++ loop starts at `pos = 0` and runs while
`pos + vertexLength < task.str.size() - 1` holds after the body, i.e. it
visits exactly the positions `0 .. task.str.size() - k - 1`; chunks shorter
than `edgeLength = k + 1` insert nothing (`vertexenumerator.h:970-973`). -/
def fillerVals (k : Nat) (t : List Char) : List Nat :=
  if t.length < k + 1 then []
  else
    ((List.range' 0 (t.length - k)).foldl (fillStep k t)
      (dcount (winAt t 0 k), [])).2

/-! ### Pass 2: the occurrence set (`CandidateFinalFilteringWorker`,
`vertexenumerator.h:673-783`, together with the merge logic at lines
741-753).  The concurrent hash set keyed by the canonical k-mer is modelled
as an association list of entries; the rolling hashes only influence
bucketing and are dropped. -/

/-- An occurrence record as constructed by `CandidateOccurence::Set` for one
candidate position: the canonical k-mer together with the flank pair in
canonical orientation. -/
structure OccIns where
  base : List Char
  prev : Char
  next : Char
deriving DecidableEq, Repr

/-- An entry of the occurrence set: the stored record plus its
`isBifurcation` flag. -/
structure OccEntry where
  base : List Char
  prev : Char
  next : Char
  isBif : Bool
deriving DecidableEq, Repr

/-- Modelled from the spec: `CandidateOccurence::Set`
(`candidateoccurence.h`, not in the sources).  The record stores the
bit-packed *canonical* k-mer (spec §4.6, §4.1: canonical = lexicographic min
of the window and its reverse complement); when the reverse complement is
stored, the flank witnesses are reoriented accordingly (left and right swap
and are complemented). -/
def orientOcc (v : List Char) (pc nc : Char) : OccIns :=
  if lexCmp v (revCompStr v) = .gt then
    ⟨revCompStr v, reverseChar nc, reverseChar pc⟩
  else ⟨v, pc, nc⟩

/-- Lookup of the entry with a given canonical base, the role played by
`occurenceSet.insert`'s key equality `Occurence::EqualBase`. -/
def lookupE : List OccEntry → List Char → Option OccEntry
  | [], _ => none
  | e :: es, b => if e.base = b then some e else lookupE es b

/-- `MakeBifurcation` on the entry with the given base. -/
def setBif (m : List OccEntry) (b : List Char) : List OccEntry :=
  m.map fun e => if e.base = b then ⟨e.base, e.prev, e.next, true⟩ else e

/-- The merge condition of `vertexenumerator.h:741-749`: the insertion makes
the stored entry a bifurcation when the flanks disagree or when both the new
and the stored flank on one side are indefinite (`inUnknownCount > 1 ||
outUnknownCount > 1`; the local `isBifurcation` flag is `false` at this
point, `vertexenumerator.h:733`). -/
def fireCond (e : OccEntry) (o : OccIns) : Bool :=
  e.next != o.next || e.prev != o.prev ||
    decide (1 < (if o.prev = 'N' then 1 else 0) +
      (if isDefinite e.prev then 0 else 1)) ||
    decide (1 < (if o.next = 'N' then 1 else 0) +
      (if isDefinite e.next then 0 else 1))

/-- One insertion into the occurrence set (`vertexenumerator.h:743-753`): a
new key is stored with a clear flag; a collision with a non-bifurcating
entry sets the flag when the merge condition fires, and never changes the
stored flanks. -/
def occInsert (m : List OccEntry) (o : OccIns) : List OccEntry :=
  match lookupE m o.base with
  | none => m ++ [⟨o.base, o.prev, o.next, false⟩]
  | some e => if e.isBif then m else if fireCond e o then setBif m o.base else m

/-- The occurrence records contributed by one chunk in Pass 2
(`vertexenumerator.h:726-766`): for every position contained in the chunk's
candidate mask, the oriented occurrence record; the loop bounds coincide
with those of Pass 1b. -/
def chunkOccs (mask : Nat → Bool) (k : Nat) (t : List Char) : List OccIns :=
  if t.length < k + 2 then []
  else
    ((List.range' 1 (t.length - (k + 1))).filter mask).map fun p =>
      orientOcc (winAt t p k) (prevAt t p) (nextAt t p k)

/-- The occurrence records of one record, using the Pass 1b candidate mask
of the same payload (the mask round-trips through the
`<seqId>_<start>_<round>.tmp` file). -/
def recordOccs (F : Nat → Bool) (k : Nat) (s : List Char) : List OccIns :=
  chunkOccs (fun p => (chunkMarks F k (taskOf s)).contains p) k (taskOf s)

/-- All occurrence records of the input set, in sequential order. -/
def allRecs (inputs : List (List Char)) (F : Nat → Bool) (k : Nat) :
    List OccIns :=
  (inputs.map (recordOccs F k)).flatten

/-- The occurrence set after Pass 2 over all inputs. -/
def occMapOf (inputs : List (List Char)) (F : Nat → Bool) (k : Nat) :
    List OccEntry :=
  (allRecs inputs F k).foldl occInsert []

/-- Embedding of `TrueBifurcations` (`vertexenumerator.h:1157-1179`): scan
the occurrence set in traversal order and write out the base of every entry
whose flag is set. -/
def trueBifurcations (m : List OccEntry) : List (List Char) :=
  (m.filter fun e => e.isBif).map fun e => e.base

/-- The canonical k-mers reported as junctions by one round of the
pipeline. -/
def reported (inputs : List (List Char)) (F : Nat → Bool) (k : Nat) :
    List (List Char) :=
  trueBifurcations (occMapOf inputs F k)

/-- Modelled from the spec: `BifurcationStorage::Init` "assigns integer IDs
0..V−1" in read order (spec §4.7); the id of a k-mer is its position in the
bifurcation stream. -/
def getIdOf (l : List (List Char)) (x : List Char) : Option Nat :=
  (l.zip (List.range l.length)).lookup x

/-! ### The true de Bruijn branching relation (claim side). -/

/-- Substring occurrence test. -/
def containsSub : List Char → List Char → Bool
  | t, e =>
    e.isPrefixOf t ||
      match t with
      | [] => false
      | _ :: t' => containsSub t' e

/-- An edge string is *sighted* when it occurs in some input record, read on
either strand (records are normalized exactly as the distributor normalizes
them). -/
def sightedB (inputs : List (List Char)) (e : List Char) : Bool :=
  inputs.any fun s =>
    containsSub (normalizeStr s) e || containsSub (revCompStr (normalizeStr s)) e

/-- The number of distinct definite predecessor bases of `v` over the union
of the input sequences considered on both strands. -/
def predCount (inputs : List (List Char)) (v : List Char) : Nat :=
  LITERAL.countP fun c => sightedB inputs (c :: v)

/-- The number of distinct definite successor bases of `v` over the union
of the input sequences considered on both strands. -/
def succCount (inputs : List (List Char)) (v : List Char) : Nat :=
  LITERAL.countP fun c => sightedB inputs (v ++ [c])

/-- `v` is a true branching k-mer of the de Bruijn graph of the inputs:
a definite `k`-mer with at least two distinct definite predecessor bases or
at least two distinct definite successor bases over both strands. -/
def TrueBranchingB (inputs : List (List Char)) (k : Nat) (v : List Char) :
    Bool :=
  decide (v.length = k) && DefiniteB v &&
    (decide (2 ≤ predCount inputs v) || decide (2 ≤ succCount inputs v))

/-! ### The emission pass (`EdgeConstructionWorker::operator()`,
`vertexenumerator.h:831-928`). -/

/-- Modelled from the spec: the `Task` structure (`common.h`, not in the
sources) carries the record id, the absolute record offset of the chunk
start, the monotone piece id, the final-chunk flag and the payload. -/
structure PTask where
  seqId : Nat
  start : Nat
  piece : Nat
  isFinal : Bool
  str : List Char
deriving DecidableEq, Repr

/-- The position loop of the emission pass (`vertexenumerator.h:879-910`).
At every position: when the window is fully definite and in the candidate
mask, look the window up in the bifurcation storage and emit
`(seqId, start + pos - 1, id)` on a hit; when the position is the first
window of the record (`task.start == 0 && pos == 1`) or the last feasible
window of the final chunk (`task.isFinal && pos == task.str.size() -
vertexLength - 1`) and no id was assigned, emit a stub tuple and advance the
stub counter. -/
def edgeStep (lookup : List Char → Option Nat) (mask : Nat → Bool) (k : Nat)
    (t : PTask) (st : Nat × Nat × List (Nat × Nat × Nat)) (p : Nat) :
    Nat × Nat × List (Nat × Nat × Nat) :=
  let dc := st.1
  let stub := st.2.1
  let acc := st.2.2
  let bifId : Option Nat :=
    if dc = k ∧ mask p then lookup (winAt t.str p k) else none
  let acc₁ :=
    match bifId with
    | some id => acc ++ [(t.seqId, t.start + p - 1, id)]
    | none => acc
  let out :=
    if ((t.start = 0 ∧ p = 1) ∨ (t.isFinal ∧ p = t.str.length - k - 1)) ∧
        bifId = none then
      (stub + 1, acc₁ ++ [(t.seqId, t.start + p - 1, stub)])
    else (stub, acc₁)
  (dcStep t.str k p dc, out)

/-- The junction tuples of one task in the emission pass, together with the
final value of the stub-id counter.  The C++ loop visits the same positions
as Pass 1b, `1 .. task.str.size() - k - 1`; chunks shorter than `k + 2`
emit nothing (`vertexenumerator.h:847-853`). -/
def edgeConstructTask (lookup : List Char → Option Nat) (mask : Nat → Bool)
    (k : Nat) (t : PTask) (stub : Nat) : List (Nat × Nat × Nat) × Nat :=
  if t.str.length < k + 2 then ([], stub)
  else
    let r :=
      (List.range' 1 (t.str.length - (k + 1))).foldl
        (edgeStep lookup mask k t) (dcount (winAt t.str 1 k), stub, [])
    (r.2.2, r.2.1)

/-! ### The task distributor (`DistributeTasks`,
`vertexenumerator.h:1065-1155`), one record.  `overlapSize = k + 1` for all
junction stages.  `TS` is `Task::TASK_SIZE` (modelled from the spec: a
constant, e.g. `2^16`). -/

/-- The per-record chunking loop.  `buf` is the growing buffer (seeded with
a single `N`), `σ` the start offset of the chunk being built (`prev`), `ct`
the number of source characters consumed (`start`), `pc` the next piece id.
When the buffer reaches `TS` a non-final task is pushed and the last `k + 1`
characters are carried over; at record end the trailing `N` is appended and
a final task is pushed provided the buffer holds at least `overlapSize`
characters. -/
def distGo (k TS sid : Nat) : List Char → List Char → Nat → Nat → Nat →
    List PTask
  | [], buf, σ, _, pc =>
    if k + 1 ≤ buf.length then [⟨sid, σ, pc, true, buf ++ ['N']⟩] else []
  | c :: rest, buf, σ, ct, pc =>
    let buf' := buf ++ [normalizeChar c]
    let ct' := ct + 1
    if k + 1 ≤ buf'.length ∧ buf'.length = TS then
      ⟨sid, σ, pc, false, buf'⟩ ::
        distGo k TS sid rest (buf'.drop (buf'.length - (k + 1)))
          (ct' - (k + 1) + 1) ct' (pc + 1)
    else distGo k TS sid rest buf' σ ct' pc

/-- The task list of one record. -/
def distributeRecord (k TS sid : Nat) (s : List Char) : List PTask :=
  distGo k TS sid s ['N'] 0 0 0

/-- The bifurcation id resolved at one position of the emission loop
(`vertexenumerator.h:884-886`). -/
def bifIdAt (lookup : List Char → Option Nat) (mask : Nat → Bool) (k : Nat)
    (t : PTask) (p : Nat) : Option Nat :=
  if dcount (winAt t.str p k) = k ∧ mask p then lookup (winAt t.str p k)
  else none

/-- Whether the emission loop emits a tuple at position `p`: either the
window resolves to a bifurcation id, or the position is a record endpoint
with no id and a stub is minted.  The two cases are mutually exclusive, so
at most one tuple per position is emitted. -/
def emitAtB (lookup : List Char → Option Nat) (mask : Nat → Bool) (k : Nat)
    (t : PTask) (p : Nat) : Bool :=
  (bifIdAt lookup mask k t p).isSome ||
    (decide ((t.start = 0 ∧ p = 1) ∨
        (t.isFinal ∧ p = t.str.length - k - 1)) &&
      !(bifIdAt lookup mask k t p).isSome)

/-- The positions of the tuples emitted for one task (the stub counter does
not influence which positions are emitted). -/
def taskPositions (lookup : List Char → Option Nat) (mask : Nat → Nat → Bool)
    (k : Nat) (t : PTask) : List Nat :=
  (edgeConstructTask lookup (mask t.start) k t 0).1.map fun j => j.2.1

/-- The positions of the junction tuples emitted for one record, in piece
order (the order enforced by `FlushEdgeResults` and the `currentPiece`
counter). -/
def emissionPositions (k TS : Nat) (s : List Char)
    (lookup : List Char → Option Nat) (mask : Nat → Nat → Bool) :
    List Nat :=
  ((distributeRecord k TS 0 s).map (taskPositions lookup mask k)).flatten

/-- The geometry the distributor guarantees for the task list of one
record: the first task starts at the given offset, every task is at least
`k + 2` characters long, and each subsequent task starts exactly
`length - (k + 1)` characters after its predecessor (the `k + 1`-character
overlap). -/
def TasksChained (k : Nat) : Nat → List PTask → Prop
  | _, [] => True
  | σ, t :: ts =>
    t.start = σ ∧ k + 2 ≤ t.str.length ∧
      TasksChained k (t.start + t.str.length - (k + 1)) ts

/-! ### The junction-position file (`junctionpositionapi.h`). -/

/-- `JunctionPosition::SEPARATOR_POS`, the all-ones `uint32_t`. -/
def SEPP : Nat := 2 ^ 32 - 1

/-- `JunctionPosition::SEPARATOR_BIF`, the all-ones `uint64_t`. -/
def SEPB : Nat := 2 ^ 64 - 1

/-- Embedding of `JunctionPositionWriter::WriteJunction`
(`junctionpositionapi.h:88-102`), iterated over a stream of `(chr, pos,
bifId)` tuples: while the tuple's `chr` exceeds the writer's current
chromosome counter, a separator record is emitted and the counter advances;
then the `(pos, bifId)` pair is written. -/
def writeAllGo (w : Nat) : List (Nat × Nat × Nat) → List (Nat × Nat)
  | [] => []
  | (chr, pos, bifId) :: rest =>
    List.replicate (chr - w) (SEPP, SEPB) ++
      ((pos, bifId) :: writeAllGo (max w chr) rest)

/-- The file produced by writing a junction stream (writer starts with
`nowChr_ = 0`). -/
def writeAll (js : List (Nat × Nat × Nat)) : List (Nat × Nat) := writeAllGo 0 js

/-- Embedding of `JunctionPositionReader::NextJunctionPosition`
(`junctionpositionapi.h:51-69`), iterated to the end of the file: a record
whose `pos` and `bifId` both differ from the separator sentinels is yielded
with the current chromosome counter; any other record is skipped and the
counter advances. -/
def readGo : List (Nat × Nat) → Nat → List (Nat × Nat × Nat)
  | [], _ => []
  | (pos, bifId) :: rest, chr =>
    if pos ≠ SEPP ∧ bifId ≠ SEPB then (chr, pos, bifId) :: readGo rest chr
    else readGo rest (chr + 1)

/-- The tuple stream recovered by reading a file (reader starts with
`nowChr_ = 0`). -/
def readAll (f : List (Nat × Nat)) : List (Nat × Nat × Nat) := readGo f 0

/-! ### The candidate-mask temp files (claim C10).  The file system is
modelled as an association list from the `(sequence, position, round)`
triple of `CandidateMaskFileName` (`vertexenumerator.h:436-441`) to the
stored position set. -/

/-- A chunk as seen by the mask-file passes. -/
structure MTask where
  seqId : Nat
  start : Nat
  str : List Char
deriving DecidableEq, Repr

/-- The `(sequence, pos, round)` triple encoded in the file name by
`CandidateMaskFileName`. -/
def maskKey (seqId start round : Nat) : Nat × Nat × Nat := (seqId, start, round)

/-- The mask files written by Pass 1b (`vertexenumerator.h:622-636`): a
chunk of length at least `k + 2` writes its candidate filter only when
`candidateFilter.Size() > 0`. -/
def pass1bWrites (F : Nat → Bool) (k round : Nat) (ts : List MTask) :
    List ((Nat × Nat × Nat) × List Nat) :=
  ts.filterMap fun t =>
    if k + 2 ≤ t.str.length ∧ chunkMarks F k t.str ≠ [] then
      some (maskKey t.seqId t.start round, chunkMarks F k t.str)
    else none

/-- Modelled from the spec: reading a mask file.  `readFromFile` on a path
that was never written raises a `TempIO` error (spec §7); the store lookup
returns `none` in that case. -/
def storeLookup (st : List ((Nat × Nat × Nat) × List Nat))
    (key : Nat × Nat × Nat) : Option (List Nat) :=
  (st.find? fun p => p.1 == key).map fun p => p.2

/-- Embedding of `ReportError` (`vertexenumerator.h:443-452`): the shared
slot keeps the first error. -/
def reportErr (slot : Option (Nat × Nat × Nat)) (e : Nat × Nat × Nat) :
    Option (Nat × Nat × Nat) :=
  if slot = none then some e else slot

/-- The mask-file keys Pass 2 attempts to read
(`vertexenumerator.h:710-721`): one per chunk of length at least `k + 2`. -/
def pass2Reads (k round : Nat) (ts : List MTask) : List (Nat × Nat × Nat) :=
  ts.filterMap fun t =>
    if k + 2 ≤ t.str.length then some (maskKey t.seqId t.start round) else none

/-- The mask-file keys the emission pass attempts to read
(`vertexenumerator.h:855-869`): for every chunk of length at least `k + 2`,
one per round. -/
def emissionReads (k rounds : Nat) (ts : List MTask) :
    List (Nat × Nat × Nat) :=
  (ts.map fun t =>
    if k + 2 ≤ t.str.length then
      (List.range rounds).map fun i => maskKey t.seqId t.start i
    else []).flatten

/-- The error slot after Pass 2 has processed all chunks against the mask
store: every failed read is captured first-error-wins. -/
def pass2ErrSlot (st : List ((Nat × Nat × Nat) × List Nat)) (k round : Nat)
    (ts : List MTask) : Option (Nat × Nat × Nat) :=
  ts.foldl
    (fun slot t =>
      if k + 2 ≤ t.str.length then
        match storeLookup st (maskKey t.seqId t.start round) with
        | some _ => slot
        | none => reportErr slot (maskKey t.seqId t.start round)
      else slot)
    none

/-- The stage join (`vertexenumerator.h:332-341`): if the shared error slot
is set once the workers have been joined, the run aborts. -/
def stageJoin (slot : Option (Nat × Nat × Nat)) :
    Except (Nat × Nat × Nat) Unit :=
  match slot with
  | some e => .error e
  | none => .ok ()

/-! ## Lemmas: characters and reverse complement -/

theorem reverseChar_reverseChar (c : Char) : reverseChar (reverseChar c) = c := by
  unfold reverseChar
  split_ifs <;> simp_all

theorem reverseChar_involutive : Function.Involutive reverseChar :=
  reverseChar_reverseChar

theorem reverseChar_injective : Function.Injective reverseChar :=
  reverseChar_involutive.injective

theorem isDefinite_reverseChar (c : Char) :
    isDefinite (reverseChar c) = isDefinite c := by
  unfold reverseChar isDefinite
  split_ifs <;> simp_all

theorem revCompStr_revCompStr (s : List Char) : revCompStr (revCompStr s) = s := by
  unfold revCompStr
  rw [List.map_reverse, List.reverse_reverse, List.map_map,
    show reverseChar ∘ reverseChar = id from funext reverseChar_reverseChar,
    List.map_id]

theorem length_revCompStr (s : List Char) : (revCompStr s).length = s.length := by
  simp [revCompStr]

theorem revCompStr_append (a b : List Char) :
    revCompStr (a ++ b) = revCompStr b ++ revCompStr a := by
  simp [revCompStr]

theorem revCompStr_cons (c : Char) (s : List Char) :
    revCompStr (c :: s) = revCompStr s ++ [reverseChar c] := by
  simp [revCompStr]

theorem revCompStr_singleton (c : Char) : revCompStr [c] = [reverseChar c] := by
  simp [revCompStr]

/-! ## Lemmas: lexicographic comparison -/

theorem lexCmp_self (a : List Char) : lexCmp a a = .eq := by
  induction a with
  | nil => rfl
  | cons c cs ih => simp [lexCmp, ih]

theorem lexCmp_swap (a b : List Char) : lexCmp b a = (lexCmp a b).swap := by
  induction a generalizing b with
  | nil => cases b <;> rfl
  | cons c cs ih =>
    cases b with
    | nil => rfl
    | cons d ds =>
      simp only [lexCmp]
      split_ifs <;> first | rfl | omega | exact ih ds

theorem char_toNat_inj {c d : Char} (h : c.toNat = d.toNat) : c = d := by
  apply Char.eq_of_val_eq
  apply UInt32.eq_of_toBitVec_eq
  exact BitVec.eq_of_toNat_eq h

theorem lexCmp_eq_iff (a b : List Char) : lexCmp a b = .eq ↔ a = b := by
  constructor
  · intro h
    induction a generalizing b with
    | nil =>
      cases b with
      | nil => rfl
      | cons d ds => simp [lexCmp] at h
    | cons c cs ih =>
      cases b with
      | nil => simp [lexCmp] at h
      | cons d ds =>
        simp only [lexCmp] at h
        split_ifs at h with h1 h2
        all_goals
          first
          | exact absurd h (by decide)
          | (have hc : c = d := char_toNat_inj (by omega)
             rw [hc, ih ds h])
  · rintro rfl; exact lexCmp_self a

theorem lexCmp_gt_iff (a b : List Char) :
    lexCmp a b = .gt ↔ lexCmp b a = .lt := by
  rw [lexCmp_swap b a]
  cases h : lexCmp b a <;> decide

/-! ## Claim C4: canonical edge values -/

theorem getCanonicalVal_revCompStr (e : List Char) :
    getCanonicalVal e = getCanonicalVal (revCompStr e) := by
  unfold getCanonicalVal
  rw [revCompStr_revCompStr]
  cases h : lexCmp e (revCompStr e) with
  | lt =>
    have h2 : lexCmp (revCompStr e) e = .gt := by
      rw [lexCmp_gt_iff]; exact h
    rw [if_neg (by decide), if_pos h2]
  | eq =>
    have he : e = revCompStr e := (lexCmp_eq_iff _ _).mp h
    rw [if_neg (by decide), if_neg (by rw [← he, lexCmp_self]; decide)]
    exact congrArg convertToInt he
  | gt =>
    have h2 : lexCmp (revCompStr e) e = .lt := (lexCmp_gt_iff _ _).mp h
    rw [if_pos rfl, if_neg (by rw [h2]; decide)]

/-- C4: for every edge string `e` over `{A,C,G,T}`, `getCanonicalVal e`
equals `getCanonicalVal (reverseComplement e)`, and the returned value is
the integer encoding of the lexicographically smaller (compared as strings)
of `e` and its reverse complement. -/
theorem c4_getCanonicalVal_canonical (e : List Char)
    (hdef : DefiniteB e = true) :
    getCanonicalVal e = getCanonicalVal (revCompStr e) ∧
    getCanonicalVal e = convertToInt (lexMin e (revCompStr e)) ∧
    lexCmp (lexMin e (revCompStr e)) e ≠ .gt ∧
    lexCmp (lexMin e (revCompStr e)) (revCompStr e) ≠ .gt := by
  refine ⟨getCanonicalVal_revCompStr e, ?_, ?_, ?_⟩
  · unfold getCanonicalVal lexMin
    split_ifs <;> rfl
  · unfold lexMin
    split_ifs with h
    · rw [(lexCmp_gt_iff _ _).mp h]; decide
    · rw [lexCmp_self]; decide
  · unfold lexMin
    split_ifs with h
    · rw [lexCmp_self]; decide
    · exact h

/-- C4 witness: the theorem instantiated at the edge `ACG`. -/
theorem c4_witness :
    DefiniteB ['A', 'C', 'G'] = true ∧
    (getCanonicalVal ['A', 'C', 'G'] =
        getCanonicalVal (revCompStr ['A', 'C', 'G']) ∧
      getCanonicalVal ['A', 'C', 'G'] =
        convertToInt (lexMin ['A', 'C', 'G'] (revCompStr ['A', 'C', 'G'])) ∧
      lexCmp (lexMin ['A', 'C', 'G'] (revCompStr ['A', 'C', 'G']))
          ['A', 'C', 'G'] ≠ .gt ∧
      lexCmp (lexMin ['A', 'C', 'G'] (revCompStr ['A', 'C', 'G']))
          (revCompStr ['A', 'C', 'G']) ≠ .gt) :=
  ⟨by decide, c4_getCanonicalVal_canonical _ (by decide)⟩

/-! ## Claim C5: the positional 2-bit encoding -/

theorem makeUpChar_le (c : Char) : makeUpChar c ≤ 3 := by
  unfold makeUpChar
  split_ifs <;> omega

theorem makeUpChar_and_three (c : Char) : makeUpChar c &&& 3 = makeUpChar c := by
  unfold makeUpChar
  split_ifs <;> rfl

theorem convGo_eq (s : List Char) (i r : Nat) (hr : r < 2 ^ 64) :
    convGo s i r =
      (r + ∑ j ∈ Finset.range s.length, makeUpChar (s.getD j 'A') * 4 ^ (i + j)) %
        2 ^ 64 := by
  induction s generalizing i r with
  | nil =>
    simp only [convGo, List.length_nil, Finset.range_zero, Finset.sum_empty,
      Nat.add_zero]
    exact (Nat.mod_eq_of_lt hr).symm
  | cons c cs ih =>
    rw [convGo, ih _ _ (Nat.mod_lt _ (by norm_num))]
    rw [Nat.mod_add_mod]
    congr 1
    rw [makeUpChar_and_three, Nat.shiftLeft_eq,
      show (2 : Nat) ^ (2 * i) = 4 ^ i by rw [Nat.pow_mul]]
    rw [List.length_cons, Finset.sum_range_succ']
    simp only [List.getD_cons_succ, List.getD_cons_zero, Nat.add_zero]
    rw [Finset.sum_congr rfl
      (fun j _ => by rw [show i + 1 + j = i + (j + 1) from by omega])]
    omega

theorem geom_three_four (n : Nat) :
    ∑ j ∈ Finset.range n, 3 * 4 ^ j = 4 ^ n - 1 := by
  induction n with
  | zero => simp
  | succ n ih =>
    rw [Finset.sum_range_succ, ih, pow_succ]
    have h1 : 1 ≤ 4 ^ n := Nat.one_le_pow n 4 (by norm_num)
    omega

/-- C5: for every definite base string of length at most 32 (in particular
every `(k+1)`-mer with `k + 1 ≤ 32`), `convertToInt` returns the integer in
which the 2-bit code of base `i` (A=0, C=1, G=2, T=3) occupies bits
`2i..2i+1`, i.e. the sum over `i` of `code(s[i]) * 4^i`. -/
theorem c5_convertToInt_spec (s : List Char) (hdef : DefiniteB s = true)
    (hlen : s.length ≤ 32) : convertToInt s = specEncode s := by
  unfold convertToInt specEncode
  rw [convGo_eq s 0 0 (by norm_num)]
  simp only [Nat.zero_add]
  apply Nat.mod_eq_of_lt
  have hle : ∑ j ∈ Finset.range s.length, makeUpChar (s.getD j 'A') * 4 ^ j ≤
      ∑ j ∈ Finset.range s.length, 3 * 4 ^ j :=
    Finset.sum_le_sum fun j _ => Nat.mul_le_mul_right _ (makeUpChar_le _)
  have hpow : (4 : Nat) ^ s.length ≤ 4 ^ 32 :=
    Nat.pow_le_pow_right (by norm_num) hlen
  have h32 : (4 : Nat) ^ 32 = 2 ^ 64 := by norm_num
  rw [geom_three_four] at hle
  omega

/-- C5 witness: the theorem instantiated at the string `ACGT`. -/
theorem c5_witness :
    DefiniteB ['A', 'C', 'G', 'T'] = true ∧
    (['A', 'C', 'G', 'T'] : List Char).length ≤ 32 ∧
    convertToInt ['A', 'C', 'G', 'T'] = specEncode ['A', 'C', 'G', 'T'] :=
  ⟨by decide, by decide, c5_convertToInt_spec _ (by decide) (by decide)⟩

/-! ## Claim C3: the junction-position file round-trip -/

theorem readGo_replicate_sep (n : Nat) (rest : List (Nat × Nat)) (c : Nat) :
    readGo (List.replicate n (SEPP, SEPB) ++ rest) c = readGo rest (c + n) := by
  induction n generalizing c with
  | zero => simp
  | succ n ih =>
    rw [List.replicate_succ, List.cons_append, readGo,
      if_neg (by simp), ih (c + 1)]
    congr 1
    omega

theorem readGo_writeAllGo (js : List (Nat × Nat × Nat)) (w : Nat)
    (hsort : List.Chain' (· ≤ ·) (w :: js.map fun j => j.1))
    (hvalid : ∀ j ∈ js, j.2.1 ≠ SEPP ∧ j.2.2 ≠ SEPB) :
    readGo (writeAllGo w js) w = js := by
  induction js generalizing w with
  | nil => rfl
  | cons j rest ih =>
    obtain ⟨chr, pos, bifId⟩ := j
    have hw : w ≤ chr := (List.chain'_cons.mp (by simpa using hsort)).1
    have hv := hvalid (chr, pos, bifId) (List.mem_cons_self _ _)
    rw [writeAllGo, readGo_replicate_sep,
      show w + (chr - w) = chr from by omega, readGo,
      if_pos ⟨hv.1, hv.2⟩, Nat.max_eq_right hw]
    rw [ih chr (by simpa using (List.chain'_cons.mp (by simpa using hsort)).2)
      (fun j hj => hvalid j (List.mem_cons_of_mem _ hj))]

/-- C3 counterexample: a junction tuple whose `pos` field happens to equal
the separator sentinel `0xFFFFFFFF` is written verbatim by the writer but
skipped by the reader (which treats any record with a sentinel-valued field
as a separator), so the write/read round-trip loses it even though the
stream has non-decreasing `chr` fields. -/
theorem c3_counterexample :
    List.Chain' (· ≤ ·) (0 :: ([((0 : Nat), SEPP, (5 : Nat))].map fun j => j.1)) ∧
    readAll (writeAll [(0, SEPP, 5)]) = [] ∧
    readAll (writeAll [(0, SEPP, 5)]) ≠ [(0, SEPP, 5)] := by
  refine ⟨by simp, by decide, by decide⟩

/-- C3 (amended): for every finite sequence of `JunctionPosition` tuples
with non-decreasing `chr` fields, in-range fields, and `pos`, `bifId` both
different from the all-ones sentinels, writing them in order with
`WriteJunction` and reading the file back with `NextJunctionPosition` yields
exactly the same sequence of `(chr, pos, bifId)` tuples; the separator
records inserted by the writer are skipped by the reader while advancing the
implicit chromosome counter. -/
theorem c3_roundtrip (js : List (Nat × Nat × Nat))
    (hsort : List.Chain' (· ≤ ·) (0 :: js.map fun j => j.1))
    (hvalid : ∀ j ∈ js,
      j.2.1 < 2 ^ 32 ∧ j.2.1 ≠ SEPP ∧ j.2.2 < 2 ^ 64 ∧ j.2.2 ≠ SEPB) :
    readAll (writeAll js) = js :=
  readGo_writeAllGo js 0 hsort fun j hj =>
    ⟨(hvalid j hj).2.1, (hvalid j hj).2.2.2⟩

/-- C3 witness: the round-trip theorem applied to a two-tuple stream with a
chromosome gap (the writer inserts two separators, the reader skips them). -/
theorem c3_witness :
    List.Chain' (· ≤ ·)
      (0 :: ([((0 : Nat), (3 : Nat), (7 : Nat)), (2, 5, 9)].map fun j => j.1)) ∧
    (∀ j ∈ [((0 : Nat), (3 : Nat), (7 : Nat)), (2, 5, 9)],
      j.2.1 < 2 ^ 32 ∧ j.2.1 ≠ SEPP ∧ j.2.2 < 2 ^ 64 ∧ j.2.2 ≠ SEPB) ∧
    readAll (writeAll [(0, 3, 7), (2, 5, 9)]) = [(0, 3, 7), (2, 5, 9)] :=
  ⟨by simp, by decide, c3_roundtrip _ (by simp) (by decide)⟩

/-! ## Claim C6: round ranges are never enforced -/

/-- C6 (code evaluation): `Within` is defined but never called.  With the
round range `[low, high] = [0, 2]`, the edge `GTT` of the record `GTT` has
canonical value 16, outside the range, yet Pass 1a inserts it into the edge
filter; and the Pass 1b candidate check probes the filter at out-of-range
canonical values — the marking outcome at position 3 of the chunk `NAAGTAN`
changes with the filter's answer at the out-of-range value 16.  Edges whose
canonical encoding falls outside the round's range are therefore *not*
skipped. -/
theorem c6_range_never_enforced :
    getCanonicalVal ['G', 'T', 'T'] = 16 ∧
    Within 16 0 2 = false ∧
    16 ∈ fillerVals 2 (taskOf ['G', 'T', 'T']) ∧
    3 ∈ chunkMarks (fun v => v == 16) 2 (taskOf ['A', 'A', 'G', 'T', 'A']) ∧
    3 ∉ chunkMarks (fun _ => false) 2 (taskOf ['A', 'A', 'G', 'T', 'A']) := by
  refine ⟨by decide, by decide, by decide, by decide, by decide⟩

/-! ## Claim C7: the bifurcation stream is not sorted -/

/-- C7 (code evaluation): `TrueBifurcations` writes the confirmed k-mers in
the traversal order of the occurrence set, with no sorting pass anywhere in
the pipeline.  For the set `{CC, AA}` (both bifurcations), one traversal
order produces the lexicographically unsorted stream `[CC, AA]`, and the id
assigned to `AA` by read-order id assignment differs between the two
traversal orders of the same set — so vertex ids depend on hash-table
traversal order and re-runs are not byte-identical. -/
theorem c7_bifurcations_unsorted :
    trueBifurcations
        [⟨['C', 'C'], 'A', 'A', true⟩, ⟨['A', 'A'], 'A', 'A', true⟩] =
      [['C', 'C'], ['A', 'A']] ∧
    lexCmp ['C', 'C'] ['A', 'A'] = .gt ∧
    getIdOf
        (trueBifurcations
          [⟨['C', 'C'], 'A', 'A', true⟩, ⟨['A', 'A'], 'A', 'A', true⟩])
        ['A', 'A'] = some 1 ∧
    getIdOf
        (trueBifurcations
          [⟨['A', 'A'], 'A', 'A', true⟩, ⟨['C', 'C'], 'A', 'A', true⟩])
        ['A', 'A'] = some 0 := by
  refine ⟨by decide, by decide, by decide, by decide⟩

/-! ## Claim C8: stub emission for a record of length exactly k -/

theorem taskOf_length (s : List Char) : (taskOf s).length = s.length + 2 := by
  simp [taskOf, normalizeStr]

/-- C8 counterexample: for the record `ACG` with `k = 3` (payload `NACGN`,
length exactly `k`), the single window at `p = 1` satisfies *both* the
sequence-start condition (`task.start = 0 ∧ p = 1`) and the sequence-end
condition (`task.isFinal ∧ p = task.str.size() - k - 1`), yet the emission
pass outputs exactly one stub entry, not two: the two conditions are merged
by disjunction into a single `push_back`. -/
theorem c8_counterexample :
    (1 = (['N', 'A', 'C', 'G', 'N'] : List Char).length - 3 - 1) ∧
    (edgeConstructTask (fun _ => none) (fun _ => false) 3
        ⟨0, 0, 0, true, ['N', 'A', 'C', 'G', 'N']⟩ 42).1 = [(0, 0, 42)] ∧
    (edgeConstructTask (fun _ => none) (fun _ => false) 3
        ⟨0, 0, 0, true, ['N', 'A', 'C', 'G', 'N']⟩ 42).1.length ≠ 2 := by
  refine ⟨by decide, by decide, by decide⟩

/-- C8 (amended): for every input record whose sequence length is exactly
`k` and which resolves to no bifurcation id, the emission pass outputs
exactly *one* stub entry at position 0 — also when the single k-window is
simultaneously the sequence start and the sequence end — and the stub id is
drawn from the monotonically increasing counter that starts at `V + 42`
(`vertexenumerator.h:386`), which advances by one. -/
theorem c8_single_stub (k : Nat) (hk : 1 ≤ k) (s : List Char)
    (hs : s.length = k) (sid pc V : Nat) (mask : Nat → Bool) :
    edgeConstructTask (fun _ => none) mask k ⟨sid, 0, pc, true, taskOf s⟩
        (V + 42) =
      ([(sid, 0, V + 42)], V + 43) := by
  have hlen : (⟨sid, 0, pc, true, taskOf s⟩ : PTask).str.length = k + 2 := by
    simp [taskOf_length, hs]
  unfold edgeConstructTask
  rw [if_neg (by omega)]
  rw [hlen, show k + 2 - (k + 1) = 1 from by omega]
  simp [List.range', edgeStep, ite_self, hlen]

/-- C8 witness: the amended theorem instantiated at the record `ACG`,
`k = 3`, `V = 10`. -/
theorem c8_witness :
    1 ≤ 3 ∧ (['A', 'C', 'G'] : List Char).length = 3 ∧
    edgeConstructTask (fun _ => none) (fun _ => true) 3
        ⟨5, 0, 0, true, taskOf ['A', 'C', 'G']⟩ (10 + 42) =
      ([(5, 0, 10 + 42)], 10 + 43) :=
  ⟨by decide, by decide,
    c8_single_stub 3 (by decide) ['A', 'C', 'G'] (by decide) 5 0 10
      (fun _ => true)⟩

/-! ## Claim C2: the candidate-marking condition

First, the early-exit probing loop computes the same predicate as the
full counts of the claim. -/

theorem cLoop_mark_iff (F : Nat → Bool) (v : List Char) (pc nc : Char)
    (cs : List Char) : ∀ i o : Nat,
    (1 < (cLoop F v pc nc cs i o).1 ∨ 1 < (cLoop F v pc nc cs i o).2) ↔
      (1 < i + cs.countP (probeInB F v pc) ∨
        1 < o + cs.countP (probeOutB F v nc)) := by
  induction cs with
  | nil => intro i o; simp [cLoop]
  | cons c cs ih =>
    intro i o
    rw [List.countP_cons, List.countP_cons]
    simp only [cLoop]
    by_cases h : i < 2 ∧ o < 2
    · rw [if_pos h]
      cases hin : probeInB F v pc c <;> cases hout : probeOutB F v nc c <;>
        simp only [hin, hout, if_true, if_false, Bool.false_eq_true,
          Nat.add_zero] <;>
        rw [ih] <;> omega
    · rw [if_neg h]
      cases hin : probeInB F v pc c <;> cases hout : probeOutB F v nc c <;>
        simp only [hin, hout, if_true, if_false, Bool.false_eq_true,
          Nat.add_zero] <;> omega

theorem codeMarkB_iff (F : Nat → Bool) (t : List Char) (p k : Nat) :
    codeMarkB F (winAt t p k) (prevAt t p) (nextAt t p k) = true ↔
      (1 < inFull F t p k ∨ 1 < outFull F t p k) := by
  unfold codeMarkB codeCounts inFull outFull
  rw [Bool.or_eq_true, decide_eq_true_eq, decide_eq_true_eq]
  exact cLoop_mark_iff F (winAt t p k) (prevAt t p) (nextAt t p k) LITERAL _ _

/-! The sliding-window identity behind the incrementally carried
`definiteCount` (the source asserts it at `vertexenumerator.h:578`). -/

theorem winAt_take_succ (t : List Char) (p k : Nat) (h : p + k < t.length) :
    winAt t p (k + 1) = winAt t p k ++ [t.getD (p + k) 'N'] := by
  unfold winAt
  rw [List.take_succ]
  congr 1
  rw [List.getElem?_drop]
  have : p + k < t.length := h
  rw [List.getElem?_eq_getElem this]
  simp [List.getD, List.getElem?_eq_getElem this]

theorem winAt_cons (t : List Char) (p k : Nat) (h : p < t.length) :
    winAt t p (k + 1) = t.getD p 'N' :: winAt t (p + 1) k := by
  unfold winAt
  rw [List.drop_eq_getElem_cons h, List.take_succ_cons]
  simp [List.getD, List.getElem?_eq_getElem h]

theorem dcount_slide (t : List Char) (k p : Nat) (h : p + k < t.length) :
    dcount (winAt t (p + 1) k) = dcStep t k p (dcount (winAt t p k)) := by
  have h1 : dcount (winAt t p (k + 1)) =
      dcount (winAt t p k) + (if isDefinite (t.getD (p + k) 'N') then 1 else 0) := by
    rw [winAt_take_succ t p k h]
    unfold dcount
    rw [List.countP_append]
    simp [List.countP_cons]
  have h2 : dcount (winAt t p (k + 1)) =
      (if isDefinite (t.getD p 'N') then 1 else 0) + dcount (winAt t (p + 1) k) := by
    rw [winAt_cons t p k (by omega)]
    unfold dcount
    rw [List.countP_cons]
    omega
  unfold dcStep
  omega

/-! The Pass 1b fold computed over the visited positions equals the filter
of those positions by the per-position marking predicate. -/

theorem marksFold_eq (F : Nat → Bool) (k : Nat) (t : List Char) :
    ∀ (m a : Nat) (dc : Nat) (acc : List Nat),
    dc = dcount (winAt t a k) → a + m + k ≤ t.length →
    (((List.range' a m).foldl (marksStep F k t) (dc, acc)).2 =
      acc ++ (List.range' a m).filter fun p =>
        decide (dcount (winAt t p k) = k) &&
          codeMarkB F (winAt t p k) (prevAt t p) (nextAt t p k)) := by
  intro m
  induction m with
  | zero => intro a dc acc _ _; simp
  | succ m ih =>
    intro a dc acc hdc hb
    rw [List.range'_succ, List.foldl_cons, List.filter_cons]
    have hslide : (marksStep F k t (dc, acc) a).1 = dcount (winAt t (a + 1) k) := by
      simp only [marksStep]
      rw [hdc, ← dcount_slide t k a (by omega)]
    have hstep : (marksStep F k t (dc, acc) a).2 =
        if (decide (dcount (winAt t a k) = k) &&
            codeMarkB F (winAt t a k) (prevAt t a) (nextAt t a k)) = true then
          acc ++ [a]
        else acc := by
      simp only [marksStep, hdc]
      by_cases hc : dcount (winAt t a k) = k ∧
          codeMarkB F (winAt t a k) (prevAt t a) (nextAt t a k) = true
      · rw [if_pos hc, if_pos (by simp [hc.1, hc.2])]
      · rw [if_neg (by
          intro hcc
          exact hc ⟨hcc.1, hcc.2⟩), if_neg (by
          simp only [Bool.and_eq_true, decide_eq_true_eq]
          intro hcc
          exact hc hcc)]
    have := ih (a + 1) (marksStep F k t (dc, acc) a).1
      (marksStep F k t (dc, acc) a).2 hslide (by omega)
    rw [show (marksStep F k t (dc, acc) a) =

        ((marksStep F k t (dc, acc) a).1, (marksStep F k t (dc, acc) a).2)
      from rfl] at this ⊢
    rw [this, hstep]
    split_ifs with hc
    · simp
    · simp

theorem chunkMarks_mem (F : Nat → Bool) (k : Nat) (t : List Char) (x : Nat)
    (hlen : k + 2 ≤ t.length) :
    x ∈ chunkMarks F k t ↔
      1 ≤ x ∧ x + k + 1 ≤ t.length ∧ dcount (winAt t x k) = k ∧
        codeMarkB F (winAt t x k) (prevAt t x) (nextAt t x k) = true := by
  unfold chunkMarks
  rw [if_neg (by omega)]
  rw [marksFold_eq F k t (t.length - (k + 1)) 1 _ [] rfl (by omega)]
  simp only [List.nil_append, List.mem_filter, List.mem_range'_1,
    Bool.and_eq_true, decide_eq_true_eq]
  constructor
  · rintro ⟨⟨hx1, hx2⟩, hd, hm⟩
    exact ⟨hx1, by omega, hd, hm⟩
  · rintro ⟨hx1, hx2, hd, hm⟩
    exact ⟨⟨hx1, by omega⟩, hd, hm⟩

theorem winAt_length (t : List Char) (p k : Nat) (h : p + k ≤ t.length) :
    (winAt t p k).length = k := by
  simp only [winAt, List.length_take, List.length_drop]
  omega

theorem dcount_eq_iff_definite (t : List Char) (p k : Nat)
    (h : p + k ≤ t.length) :
    dcount (winAt t p k) = k ↔ DefiniteB (winAt t p k) = true := by
  have hl := winAt_length t p k h
  unfold dcount DefiniteB
  rw [List.all_eq_true]
  constructor
  · intro hc
    exact List.countP_eq_length.mp (by rw [hl]; exact hc)
  · intro hx
    rw [List.countP_eq_length.mpr hx]
    exact hl

/-- C2: in the candidate-marking pass, a position `p` visited by the loop
whose k-window is fully definite is recorded in the chunk's candidate mask
if and only if `inCount > 1` or `outCount > 1`, where the counts start at 2
when the corresponding flank character is indefinite and 0 otherwise, and
each character `c ∈ {A,C,G,T}` increments `inCount` when `c` equals the
observed preceding character or the edge filter contains the canonical form
of `c·vertex`, and increments `outCount` when `c` equals the observed
following character or the filter contains the canonical form of
`vertex·c`. -/
theorem c2_candidate_marking (F : Nat → Bool) (k : Nat) (t : List Char)
    (p : Nat) (hk : 1 ≤ k) (hlen : k + 2 ≤ t.length) (hp1 : 1 ≤ p)
    (hp2 : p + k + 1 ≤ t.length) (hdef : DefiniteB (winAt t p k) = true) :
    p ∈ chunkMarks F k t ↔ (1 < inFull F t p k ∨ 1 < outFull F t p k) := by
  rw [chunkMarks_mem F k t p hlen, ← codeMarkB_iff]
  have hd : dcount (winAt t p k) = k :=
    (dcount_eq_iff_definite t p k (by omega)).mpr hdef
  simp [hp1, hp2, hd]

/-- C2 witness: the marking criterion applied at position 1 of the payload
`NACGN` with an empty filter (the indefinite left flank starts `inCount`
at 2, so the position is marked). -/
theorem c2_witness :
    1 ≤ 3 ∧ 3 + 2 ≤ (['N', 'A', 'C', 'G', 'N'] : List Char).length ∧
    1 + 3 + 1 ≤ (['N', 'A', 'C', 'G', 'N'] : List Char).length ∧
    DefiniteB (winAt ['N', 'A', 'C', 'G', 'N'] 1 3) = true ∧
    (1 ∈ chunkMarks (fun _ => false) 3 ['N', 'A', 'C', 'G', 'N'] ↔
      (1 < inFull (fun _ => false) ['N', 'A', 'C', 'G', 'N'] 1 3 ∨
        1 < outFull (fun _ => false) ['N', 'A', 'C', 'G', 'N'] 1 3)) :=
  ⟨by decide, by decide, by decide, by decide,
    c2_candidate_marking (fun _ => false) 3 ['N', 'A', 'C', 'G', 'N'] 1
      (by decide) (by decide) (by decide) (by decide) (by decide)⟩

/-! ## Claim C9: emission ordering -/

theorem edgeStep_pos (lookup : List Char → Option Nat) (mask : Nat → Bool)
    (k : Nat) (t : PTask) (a dc stub : Nat) (acc : List (Nat × Nat × Nat))
    (hdc : dc = dcount (winAt t.str a k)) :
    ((edgeStep lookup mask k t (dc, stub, acc) a).2.2).map (fun j => j.2.1) =
      acc.map (fun j => j.2.1) ++
        (if emitAtB lookup mask k t a then [t.start + a - 1] else []) := by
  subst hdc
  by_cases hdm : dcount (winAt t.str a k) = k ∧ mask a = true
  · cases hid : lookup (winAt t.str a k) with
    | some id => simp [edgeStep, bifIdAt, emitAtB, hdm, hid]
    | none =>
      by_cases hcond : ((t.start = 0 ∧ a = 1) ∨
          (t.isFinal ∧ a = t.str.length - k - 1))
      · simp [edgeStep, bifIdAt, emitAtB, hdm, hid, hcond]
      · simp [edgeStep, bifIdAt, emitAtB, hdm, hid, hcond]
  · by_cases hcond : ((t.start = 0 ∧ a = 1) ∨
        (t.isFinal ∧ a = t.str.length - k - 1))
    · simp [edgeStep, bifIdAt, emitAtB, hdm, hcond]
    · simp [edgeStep, bifIdAt, emitAtB, hdm, hcond]

theorem edgeStep_dc (lookup : List Char → Option Nat) (mask : Nat → Bool)
    (k : Nat) (t : PTask) (a dc stub : Nat) (acc : List (Nat × Nat × Nat)) :
    (edgeStep lookup mask k t (dc, stub, acc) a).1 = dcStep t.str k a dc := rfl

theorem edgeFold_pos_eq (lookup : List Char → Option Nat) (mask : Nat → Bool)
    (k : Nat) (t : PTask) :
    ∀ (m a dc stub : Nat) (acc : List (Nat × Nat × Nat)),
    dc = dcount (winAt t.str a k) → a + m + k ≤ t.str.length →
    ((((List.range' a m).foldl (edgeStep lookup mask k t)
        (dc, stub, acc)).2.2).map fun j => j.2.1) =
      acc.map (fun j => j.2.1) ++
        ((List.range' a m).filter (emitAtB lookup mask k t)).map
          (fun p => t.start + p - 1) := by
  intro m
  induction m with
  | zero => intro a dc stub acc _ _; simp
  | succ m ih =>
    intro a dc stub acc hdc hb
    rw [List.range'_succ, List.foldl_cons, List.filter_cons]
    have hstep := edgeStep_pos lookup mask k t a dc stub acc hdc
    have hdc' : (edgeStep lookup mask k t (dc, stub, acc) a).1 =
        dcount (winAt t.str (a + 1) k) := by
      rw [edgeStep_dc, hdc, ← dcount_slide t.str k a (by omega)]
    have := ih (a + 1) (edgeStep lookup mask k t (dc, stub, acc) a).1
      (edgeStep lookup mask k t (dc, stub, acc) a).2.1
      (edgeStep lookup mask k t (dc, stub, acc) a).2.2 hdc' (by omega)
    rw [show edgeStep lookup mask k t (dc, stub, acc) a =
        ((edgeStep lookup mask k t (dc, stub, acc) a).1,
          (edgeStep lookup mask k t (dc, stub, acc) a).2.1,
          (edgeStep lookup mask k t (dc, stub, acc) a).2.2) from rfl] at this ⊢
    rw [this, hstep]
    by_cases he : emitAtB lookup mask k t a = true
    · rw [if_pos he, if_pos he]
      simp
    · rw [if_neg he, if_neg he]
      simp

theorem taskPositions_short (lookup : List Char → Option Nat)
    (mask : Nat → Nat → Bool) (k : Nat) (t : PTask)
    (hlen : t.str.length < k + 2) : taskPositions lookup mask k t = [] := by
  unfold taskPositions edgeConstructTask
  rw [if_pos hlen]
  rfl

theorem taskPositions_eq (lookup : List Char → Option Nat)
    (mask : Nat → Nat → Bool) (k : Nat) (t : PTask)
    (hlen : k + 2 ≤ t.str.length) :
    taskPositions lookup mask k t =
      ((List.range' 1 (t.str.length - (k + 1))).filter
        (emitAtB lookup (mask t.start) k t)).map (fun p => t.start + p - 1) := by
  unfold taskPositions edgeConstructTask
  rw [if_neg (by omega)]
  have := edgeFold_pos_eq lookup (mask t.start) k t (t.str.length - (k + 1)) 1
    (dcount (winAt t.str 1 k)) 0 [] rfl (by omega)
  simpa using this

theorem pairwise_lt_range'_one (a m : Nat) :
    List.Pairwise (· < ·) (List.range' a m) := by
  induction m generalizing a with
  | zero => simp
  | succ m ih =>
    rw [List.range'_succ]
    refine List.Pairwise.cons ?_ (ih (a + 1))
    intro b hb
    have := (List.mem_range'_1.mp hb).1
    omega

theorem taskPositions_sorted (lookup : List Char → Option Nat)
    (mask : Nat → Nat → Bool) (k : Nat) (t : PTask) :
    List.Pairwise (· < ·) (taskPositions lookup mask k t) ∧
      ∀ x ∈ taskPositions lookup mask k t,
        t.start ≤ x ∧ x + k + 2 ≤ t.start + t.str.length := by
  by_cases hlen : k + 2 ≤ t.str.length
  · rw [taskPositions_eq lookup mask k t hlen]
    constructor
    · rw [List.pairwise_map]
      refine List.Pairwise.imp_of_mem ?_
        ((pairwise_lt_range'_one 1 (t.str.length - (k + 1))).filter _)
      intro a b ha hb hab
      have ha1 := (List.mem_range'_1.mp (List.mem_of_mem_filter ha)).1
      omega
    · intro x hx
      obtain ⟨p, hp, rfl⟩ := List.mem_map.mp hx
      have h1 := List.mem_range'_1.mp (List.mem_of_mem_filter hp)
      omega
  · rw [taskPositions_short lookup mask k t (by omega)]
    exact ⟨List.Pairwise.nil, by simp⟩

theorem chained_flatten_sorted (lookup : List Char → Option Nat)
    (mask : Nat → Nat → Bool) (k : Nat) :
    ∀ (ts : List PTask) (σ : Nat), TasksChained k σ ts →
    List.Pairwise (· < ·) ((ts.map (taskPositions lookup mask k)).flatten) ∧
      ∀ x ∈ (ts.map (taskPositions lookup mask k)).flatten, σ ≤ x := by
  intro ts
  induction ts with
  | nil => intro σ _; simp
  | cons t ts ih =>
    intro σ hchain
    obtain ⟨hstart, hlen, hrest⟩ := hchain
    have hhead := taskPositions_sorted lookup mask k t
    have htail := ih (t.start + t.str.length - (k + 1)) hrest
    rw [List.map_cons, List.flatten_cons]
    constructor
    · rw [List.pairwise_append]
      refine ⟨hhead.1, htail.1, ?_⟩
      intro a ha b hb
      have h1 := (hhead.2 a ha).2
      have h2 := htail.2 b hb
      omega
    · intro x hx
      rcases List.mem_append.mp hx with hx | hx
      · have := (hhead.2 x hx).1
        omega
      · have := htail.2 x hx
        omega

theorem distGo_chained (k TS sid : Nat) (hTS : k + 2 ≤ TS) :
    ∀ (rest buf : List Char) (σ ct pc : Nat),
    1 ≤ buf.length → buf.length ≤ TS - 1 → ct = σ + buf.length - 1 →
    TasksChained k σ (distGo k TS sid rest buf σ ct pc) := by
  intro rest
  induction rest with
  | nil =>
    intro buf σ ct pc h1 h2 hct
    rw [distGo]
    split_ifs with h
    · refine ⟨rfl, by simp; omega, trivial⟩
    · trivial
  | cons c rest ih =>
    intro buf σ ct pc h1 h2 hct
    rw [distGo]
    split_ifs with h
    · have hl : buf.length + 1 = TS := by
        have := h.2
        simpa using this
      have hdropl : ((buf ++ [normalizeChar c]).drop
          ((buf ++ [normalizeChar c]).length - (k + 1))).length = k + 1 := by
        simp
        omega
      have hd : (buf ++ [normalizeChar c]).length = buf.length + 1 := by simp
      have hctk : k ≤ ct := by omega
      refine ⟨rfl, by simp; omega, ?_⟩
      have heq : σ + (buf ++ [normalizeChar c]).length - (k + 1) =
          ct + 1 - (k + 1) + 1 := by
        rw [hd]
        omega
      rw [heq]
      exact ih ((buf ++ [normalizeChar c]).drop
          ((buf ++ [normalizeChar c]).length - (k + 1)))
        (ct + 1 - (k + 1) + 1) (ct + 1) (pc + 1)
        (by rw [hdropl]; omega) (by rw [hdropl]; omega)
        (by rw [hdropl]; omega)
    · apply ih
      · simp
      · have hd2 : (buf ++ [normalizeChar c]).length = buf.length + 1 := by
          simp
        have hne : buf.length + 1 ≠ TS := by
          intro hc
          exact h ⟨by rw [hd2]; omega, by rw [hd2]; exact hc⟩
        simp
        omega
      · simp
        omega

theorem distGo_pieces (k TS sid : Nat) :
    ∀ (rest buf : List Char) (σ ct pc : Nat),
    List.Pairwise (· < ·) ((distGo k TS sid rest buf σ ct pc).map PTask.piece) ∧
    ∀ x ∈ (distGo k TS sid rest buf σ ct pc).map PTask.piece, pc ≤ x := by
  intro rest
  induction rest with
  | nil =>
    intro buf σ ct pc
    rw [distGo]
    split_ifs <;> simp
  | cons c rest ih =>
    intro buf σ ct pc
    rw [distGo]
    split_ifs with h
    · rw [List.map_cons]
      have := ih ((buf ++ [normalizeChar c]).drop
          ((buf ++ [normalizeChar c]).length - (k + 1)))
        (ct + 1 - (k + 1) + 1) (ct + 1) (pc + 1)
      constructor
      · refine List.Pairwise.cons ?_ this.1
        intro b hb
        have hpb := this.2 b hb
        show pc < b
        omega
      · intro x hx
        rcases List.mem_cons.mp hx with hx | hx
        · have hxe : x = pc := hx
          omega
        · have := this.2 x hx
          omega
    · have := ih (buf ++ [normalizeChar c]) σ (ct + 1) pc
      exact this

/-- C9: in the emission output of one record, the positions of the written
`(seqId, pos, vertexId)` tuples are strictly increasing, and the tuples
appear in pieceId order — the task list carries strictly increasing piece
ids and the output is their concatenation in that order. -/
theorem c9_emission_ordered (k TS : Nat) (hk : 1 ≤ k) (hTS : k + 2 ≤ TS)
    (s : List Char) (lookup : List Char → Option Nat)
    (mask : Nat → Nat → Bool) :
    List.Pairwise (· < ·) (emissionPositions k TS s lookup mask) ∧
    List.Pairwise (· < ·) ((distributeRecord k TS 0 s).map PTask.piece) := by
  constructor
  · exact (chained_flatten_sorted lookup mask k (distributeRecord k TS 0 s) 0
      (distGo_chained k TS 0 hTS s ['N'] 0 0 0 (by simp) (by simp; omega)
        (by simp))).1
  · exact (distGo_pieces k TS 0 s ['N'] 0 0 0).1

/-- C9 witness: the record `ACGTACG` with `k = 2`, `TASK_SIZE = 4` is cut
into six tasks; with a total mask and storage the emitted positions are
`0..5`, strictly increasing, and the piece ids are `0..5`. -/
theorem c9_witness :
    1 ≤ 2 ∧ 2 + 2 ≤ 4 ∧
    (List.Pairwise (· < ·)
        (emissionPositions 2 4 ['A', 'C', 'G', 'T', 'A', 'C', 'G']
          (fun _ => some 7) (fun _ _ => true)) ∧
      List.Pairwise (· < ·)
        ((distributeRecord 2 4 0 ['A', 'C', 'G', 'T', 'A', 'C', 'G']).map
          PTask.piece)) :=
  ⟨by decide, by decide,
    c9_emission_ordered 2 4 (by decide) (by decide)
      ['A', 'C', 'G', 'T', 'A', 'C', 'G'] (fun _ => some 7) (fun _ _ => true)⟩

/-! ## Claim C1: reported junctions contain the true branching k-mers

### Substring decompositions -/

theorem containsSub_iff (t e : List Char) :
    containsSub t e = true ↔ ∃ u w, t = u ++ (e ++ w) := by
  induction t with
  | nil =>
    rw [containsSub]
    simp only [Bool.or_false]
    rw [List.isPrefixOf_iff_prefix]
    constructor
    · intro h
      obtain ⟨w, hw⟩ := h
      exact ⟨[], w, by simp [hw]⟩
    · rintro ⟨u, w, hw⟩
      have h2 : e = [] := by
        have := congrArg List.length hw
        simp at this
        exact List.eq_nil_of_length_eq_zero (by omega)
      subst h2
      exact List.nil_prefix
  | cons c t' ih =>
    rw [containsSub]
    rw [Bool.or_eq_true, List.isPrefixOf_iff_prefix, ih]
    constructor
    · rintro (⟨w, hw⟩ | ⟨u, w, hw⟩)
      · exact ⟨[], w, by simp [hw]⟩
      · exact ⟨c :: u, w, by simp [hw]⟩
    · rintro ⟨u, w, hw⟩
      cases u with
      | nil =>
        left
        exact ⟨w, by simpa using hw.symm⟩
      | cons a u' =>
        right
        simp only [List.cons_append, List.cons.injEq] at hw
        exact ⟨u', w, hw.2⟩

theorem containsSub_revCompStr (t e : List Char)
    (h : containsSub (revCompStr t) e = true) :
    containsSub t (revCompStr e) = true := by
  rw [containsSub_iff] at h ⊢
  obtain ⟨u, w, hw⟩ := h
  refine ⟨revCompStr w, revCompStr u, ?_⟩
  have := congrArg revCompStr hw
  rw [revCompStr_revCompStr] at this
  rw [this, revCompStr_append, revCompStr_append]
  simp [List.append_assoc]

/-! ### Definiteness algebra -/

theorem DefiniteB_append (a b : List Char) :
    DefiniteB (a ++ b) = (DefiniteB a && DefiniteB b) := by
  simp [DefiniteB]

theorem DefiniteB_revCompStr (s : List Char) :
    DefiniteB (revCompStr s) = DefiniteB s := by
  unfold DefiniteB revCompStr
  rw [List.all_reverse, List.all_map]
  congr 1
  funext c
  exact isDefinite_reverseChar c

theorem definite_cases (c : Char) (h : isDefinite c = true) :
    c = 'A' ∨ c = 'C' ∨ c = 'G' ∨ c = 'T' := by
  unfold isDefinite at h
  simp only [Bool.or_eq_true, beq_iff_eq] at h
  tauto

/-! ### Two witnesses in the probing alphabet -/

theorem mem_LITERAL_of_definite (c : Char) (h : isDefinite c = true) :
    c ∈ LITERAL := by
  rcases definite_cases c h with rfl | rfl | rfl | rfl <;> simp [LITERAL]

theorem two_le_length_of_two_mem (l : List Char) (a b : Char) (ha : a ∈ l)
    (hb : b ∈ l) (hne : a ≠ b) : 2 ≤ l.length := by
  induction l with
  | nil => cases ha
  | cons x xs ih =>
    rcases List.mem_cons.mp ha with rfl | ha' <;>
      rcases List.mem_cons.mp hb with he | hb'
    · exact absurd he.symm hne
    · have := List.length_pos_of_mem hb'
      simp only [List.length_cons]
      omega
    · have := List.length_pos_of_mem ha'
      simp only [List.length_cons]
      omega
    · have := ih ha' hb'
      simp only [List.length_cons]
      omega

theorem countP_two (P : Char → Bool) (c₁ c₂ : Char) (hne : c₁ ≠ c₂)
    (h1 : isDefinite c₁ = true) (h2 : isDefinite c₂ = true)
    (hp1 : P c₁ = true) (hp2 : P c₂ = true) : 2 ≤ LITERAL.countP P := by
  rw [List.countP_eq_length_filter]
  exact two_le_length_of_two_mem _ c₁ c₂
    (List.mem_filter.mpr ⟨mem_LITERAL_of_definite c₁ h1, hp1⟩)
    (List.mem_filter.mpr ⟨mem_LITERAL_of_definite c₂ h2, hp2⟩) hne

theorem two_of_countP (P : Char → Bool) (h : 2 ≤ LITERAL.countP P) :
    ∃ c₁ c₂, c₁ ≠ c₂ ∧ isDefinite c₁ = true ∧ isDefinite c₂ = true ∧
      P c₁ = true ∧ P c₂ = true := by
  cases hA : P 'A' <;> cases hC : P 'C' <;> cases hG : P 'G' <;>
    cases hT : P 'T' <;>
    simp [LITERAL, List.countP_cons, hA, hC, hG, hT] at h <;>
    first
    | exact ⟨'A', 'C', by decide, by decide, by decide, hA, hC⟩
    | exact ⟨'A', 'G', by decide, by decide, by decide, hA, hG⟩
    | exact ⟨'A', 'T', by decide, by decide, by decide, hA, hT⟩
    | exact ⟨'C', 'G', by decide, by decide, by decide, hC, hG⟩
    | exact ⟨'C', 'T', by decide, by decide, by decide, hC, hT⟩
    | exact ⟨'G', 'T', by decide, by decide, by decide, hG, hT⟩

/-! ### Pass 1a inserts the canonical value of every sighted edge -/

theorem getD_mem_of_lt (f : List Char) (k : Nat) (d : Char)
    (h : k < f.length) : f.getD k d ∈ f := by
  rw [List.getD_eq_getElem?_getD, List.getElem?_eq_getElem h]
  exact List.getElem_mem h

theorem DefiniteB_take (f : List Char) (n : Nat) (h : DefiniteB f = true) :
    DefiniteB (f.take n) = true := by
  rw [DefiniteB, List.all_eq_true] at h ⊢
  exact fun c hc => h c (List.mem_of_mem_take hc)

theorem take_append_getD (f : List Char) (k : Nat) (hf : f.length = k + 1) :
    f.take k ++ [f.getD k 'N'] = f := by
  have h3 : f[k]? = some (f.getD k 'N') := by
    rw [List.getD_eq_getElem?_getD, List.getElem?_eq_getElem (by omega)]
    rfl
  calc f.take k ++ [f.getD k 'N'] = f.take k ++ f[k]?.toList := by
        rw [h3]
        rfl
    _ = f.take (k + 1) := List.take_succ.symm
    _ = f := List.take_of_length_le (by omega)

theorem fillFold_eq (k : Nat) (t : List Char) :
    ∀ (m a dc : Nat) (acc : List Nat),
    dc = dcount (winAt t a k) → a + m + k ≤ t.length →
    (((List.range' a m).foldl (fillStep k t) (dc, acc)).2 =
      acc ++ ((List.range' a m).map fun p =>
        if dcount (winAt t p k) = k then fillAt k t p else []).flatten) := by
  intro m
  induction m with
  | zero => intro a dc acc _ _; simp
  | succ m ih =>
    intro a dc acc hdc hb
    rw [List.range'_succ, List.foldl_cons, List.map_cons, List.flatten_cons]
    have hslide : (fillStep k t (dc, acc) a).1 = dcount (winAt t (a + 1) k) := by
      simp only [fillStep]
      rw [hdc, ← dcount_slide t k a (by omega)]
    have hstep : (fillStep k t (dc, acc) a).2 =
        acc ++ (if dcount (winAt t a k) = k then fillAt k t a else []) := by
      simp only [fillStep, hdc]
      split_ifs <;> simp
    have := ih (a + 1) (fillStep k t (dc, acc) a).1
      (fillStep k t (dc, acc) a).2 hslide (by omega)
    rw [show fillStep k t (dc, acc) a =
        ((fillStep k t (dc, acc) a).1, (fillStep k t (dc, acc) a).2)
      from rfl] at this ⊢
    rw [this, hstep]
    simp

theorem fillerVals_mem (k : Nat) (t : List Char) (p : Nat) (val : Nat)
    (hp : p + k + 1 ≤ t.length) (hd : dcount (winAt t p k) = k)
    (hval : val ∈ fillAt k t p) : val ∈ fillerVals k t := by
  unfold fillerVals
  rw [if_neg (by omega)]
  rw [fillFold_eq k t (t.length - k) 0 _ [] rfl (by omega)]
  rw [List.nil_append]
  apply List.mem_flatten.mpr
  refine ⟨fillAt k t p, ?_, hval⟩
  apply List.mem_map.mpr
  refine ⟨p, ?_, by rw [if_pos hd]⟩
  rw [List.mem_range'_1]
  omega

theorem edge_canonical_in_filler (k : Nat) (s : List Char) (f : List Char)
    (hk : 1 ≤ k) (hf : f.length = k + 1) (hfdef : DefiniteB f = true)
    (hsub : containsSub (normalizeStr s) f = true) :
    getCanonicalVal f ∈ fillerVals k (taskOf s) := by
  obtain ⟨u, w, hw⟩ := (containsSub_iff _ _).mp hsub
  have ht : taskOf s = ('N' :: u) ++ (f ++ (w ++ ['N'])) := by
    rw [taskOf, hw]
    simp
  have hlen : (taskOf s).length = (u.length + 1) + (k + 1) + (w.length + 1) := by
    rw [ht]
    simp [hf]
    omega
  have hwin : winAt (taskOf s) (u.length + 1) k = f.take k := by
    rw [ht, winAt]
    rw [show u.length + 1 = ('N' :: u).length from by simp, List.drop_left]
    exact List.take_append_of_le_length (by omega)
  have hnext : (taskOf s).getD (u.length + 1 + k) 'N' = f.getD k 'N' := by
    rw [ht, List.getD_append_right _ _ _ _ (by simp)]
    rw [show u.length + 1 + k - ('N' :: u).length = k from by simp]
    exact List.getD_append _ _ _ _ (by omega)
  have hnextdef : isDefinite (f.getD k 'N') = true := by
    rw [DefiniteB, List.all_eq_true] at hfdef
    exact hfdef _ (getD_mem_of_lt f k 'N' (by omega))
  have hdw : dcount (winAt (taskOf s) (u.length + 1) k) = k := by
    rw [dcount_eq_iff_definite _ _ _ (by omega), hwin]
    exact DefiniteB_take f k hfdef
  apply fillerVals_mem k (taskOf s) (u.length + 1) _ (by omega) hdw
  unfold fillAt
  rw [hnext, hwin]
  apply List.mem_append_left
  rw [if_pos hnextdef, take_append_getD f k hf]
  exact List.mem_singleton.mpr rfl

/-- Any sighted definite edge (either strand) has its canonical value in the
round's filter. -/
theorem sighted_F (inputs : List (List Char)) (F : Nat → Bool) (k : Nat)
    (e : List Char) (hk : 1 ≤ k) (he : e.length = k + 1)
    (hedef : DefiniteB e = true)
    (hFs : ∀ s ∈ inputs, ∀ val ∈ fillerVals k (taskOf s), F val = true)
    (hs : sightedB inputs e = true) : F (getCanonicalVal e) = true := by
  unfold sightedB at hs
  rw [List.any_eq_true] at hs
  obtain ⟨s, hsm, hor⟩ := hs
  rw [Bool.or_eq_true] at hor
  rcases hor with fwd | rev
  · exact hFs s hsm _ (edge_canonical_in_filler k s e hk he hedef fwd)
  · have h2 := containsSub_revCompStr _ _ rev
    have h3 := edge_canonical_in_filler k s (revCompStr e) hk
      (by rw [length_revCompStr, he]) (by rw [DefiniteB_revCompStr]; exact hedef) h2
    rw [getCanonicalVal_revCompStr e]
    exact hFs s hsm _ h3

/-! ### Occurrence records produced at sighted evidence positions -/

theorem orient_mem_recordOccs (F : Nat → Bool) (k : Nat) (s : List Char)
    (p : Nat) (hlen : k + 2 ≤ (taskOf s).length) (hp1 : 1 ≤ p)
    (hp2 : p + k + 1 ≤ (taskOf s).length)
    (hmark : p ∈ chunkMarks F k (taskOf s)) :
    orientOcc (winAt (taskOf s) p k) (prevAt (taskOf s) p)
      (nextAt (taskOf s) p k) ∈ recordOccs F k s := by
  unfold recordOccs chunkOccs
  rw [if_neg (by omega)]
  apply List.mem_map.mpr
  refine ⟨p, ?_, rfl⟩
  apply List.mem_filter.mpr
  exact ⟨List.mem_range'_1.mpr ⟨hp1, by omega⟩, List.elem_iff.mpr hmark⟩

theorem mem_allRecs (inputs : List (List Char)) (F : Nat → Bool) (k : Nat)
    (s : List Char) (hs : s ∈ inputs) (r : OccIns)
    (hr : r ∈ recordOccs F k s) : r ∈ allRecs inputs F k := by
  unfold allRecs
  exact List.mem_flatten.mpr ⟨recordOccs F k s, List.mem_map.mpr ⟨s, hs, rfl⟩, hr⟩

theorem window_decomp (s : List Char) (u₁ v w₁ : List Char) (k : Nat)
    (hts : taskOf s = u₁ ++ (v ++ w₁)) (hu : 1 ≤ u₁.length)
    (hw : 1 ≤ w₁.length) (hv : v.length = k) :
    winAt (taskOf s) u₁.length k = v ∧
    nextAt (taskOf s) u₁.length k = w₁.getD 0 'N' ∧
    prevAt (taskOf s) u₁.length = u₁.getD (u₁.length - 1) 'N' ∧
    1 ≤ u₁.length ∧ u₁.length + k + 1 ≤ (taskOf s).length ∧
    k + 2 ≤ (taskOf s).length := by
  have hlen : (taskOf s).length = u₁.length + k + w₁.length := by
    rw [hts]
    simp [hv]
    omega
  refine ⟨?_, ?_, ?_, hu, by omega, by omega⟩
  · rw [hts, winAt, List.drop_left]
    rw [← hv]
    exact List.take_left v w₁
  · rw [hts, nextAt, List.getD_append_right _ _ _ _ (by omega)]
    rw [show u₁.length + k - u₁.length = k from by omega,
      List.getD_append_right _ _ _ _ (by omega),
      show k - v.length = 0 from by omega]
  · rw [hts, prevAt, List.getD_append _ _ _ _ (by omega)]

/-- A forward or reverse-strand sighting of the successor edge `v·c₁`, in
the presence of a second filter-visible successor edge `v·c₂`, yields an
occurrence record keyed by the canonical form of `v` whose
canonically-oriented successor flank is `c₁`. -/
theorem sighting_succ_record (inputs : List (List Char)) (F : Nat → Bool)
    (k : Nat) (v : List Char) (c₁ c₂ : Char) (hk : 1 ≤ k)
    (hv : v.length = k) (hvdef : DefiniteB v = true)
    (hnp : v ≠ revCompStr v) (h1 : isDefinite c₁ = true)
    (h2 : isDefinite c₂ = true) (hne : c₁ ≠ c₂)
    (hs : sightedB inputs (v ++ [c₁]) = true)
    (hF : F (getCanonicalVal (v ++ [c₂])) = true) :
    ∃ r ∈ allRecs inputs F k, r.base = canonicalStr v ∧
      (if lexCmp v (revCompStr v) = .gt then reverseChar r.prev else r.next) =
        c₁ := by
  unfold sightedB at hs
  rw [List.any_eq_true] at hs
  obtain ⟨s, hsm, hor⟩ := hs
  rw [Bool.or_eq_true] at hor
  rcases hor with fwd | rev
  · obtain ⟨u, w, hw⟩ := (containsSub_iff _ _).mp fwd
    have hts : taskOf s = ('N' :: u) ++ (v ++ (c₁ :: (w ++ ['N']))) := by
      rw [taskOf, hw]
      simp
    obtain ⟨hwin, hnext, hprev, hp1, hp2, hlen⟩ :=
      window_decomp s ('N' :: u) v (c₁ :: (w ++ ['N'])) k hts (by simp)
        (by simp) hv
    rw [show (c₁ :: (w ++ ['N'])).getD 0 'N' = c₁ from rfl] at hnext
    rw [show ('N' :: u).length = u.length + 1 from by simp]
      at hwin hnext hprev hp1 hp2
    have hdw : dcount (winAt (taskOf s) (u.length + 1) k) = k := by
      rw [dcount_eq_iff_definite _ _ _ (by omega), hwin]
      exact hvdef
    have hout : 1 < outFull F (taskOf s) (u.length + 1) k := by
      unfold outFull
      have hcount : 2 ≤ LITERAL.countP
          (probeOutB F (winAt (taskOf s) (u.length + 1) k)
            (nextAt (taskOf s) (u.length + 1) k)) := by
        apply countP_two _ c₁ c₂ hne h1 h2
        · simp [probeOutB, hnext]
        · simp [probeOutB, hwin, hnext, hF]
      omega
    have hmark : u.length + 1 ∈ chunkMarks F k (taskOf s) := by
      rw [chunkMarks_mem _ _ _ _ hlen]
      exact ⟨hp1, hp2, hdw, (codeMarkB_iff _ _ _ _).mpr (Or.inr hout)⟩
    have hrec := orient_mem_recordOccs F k s (u.length + 1) hlen hp1 hp2 hmark
    refine ⟨_, mem_allRecs inputs F k s hsm _ hrec, ?_⟩
    rw [hwin, hnext]
    unfold orientOcc canonicalStr lexMin
    by_cases hgt : lexCmp v (revCompStr v) = .gt
    · rw [if_pos hgt, if_pos hgt, if_pos hgt]
      exact ⟨rfl, reverseChar_reverseChar c₁⟩
    · rw [if_neg hgt, if_neg hgt, if_neg hgt]
      exact ⟨rfl, rfl⟩
  · have h2s := containsSub_revCompStr _ _ rev
    have hrc : revCompStr (v ++ [c₁]) = reverseChar c₁ :: revCompStr v := by
      rw [revCompStr_append, revCompStr_singleton]
      rfl
    rw [hrc] at h2s
    obtain ⟨u, w, hw⟩ := (containsSub_iff _ _).mp h2s
    have hts : taskOf s =
        (('N' :: u) ++ [reverseChar c₁]) ++ (revCompStr v ++ (w ++ ['N'])) := by
      rw [taskOf, hw]
      simp
    obtain ⟨hwin, hnext, hprev, hp1, hp2, hlen⟩ :=
      window_decomp s (('N' :: u) ++ [reverseChar c₁]) (revCompStr v)
        (w ++ ['N']) k hts (by simp) (by simp)
        (by rw [length_revCompStr, hv])
    rw [show (('N' :: u) ++ [reverseChar c₁]).length = u.length + 2
      from by simp] at hwin hnext hprev hp1 hp2
    have hprev' : prevAt (taskOf s) (u.length + 2) = reverseChar c₁ := by
      rw [hprev, show u.length + 2 - 1 = ('N' :: u).length from by simp]
      rw [List.getD_append_right _ _ _ _ (Nat.le_refl _)]
      simp
    have hdw : dcount (winAt (taskOf s) (u.length + 2) k) = k := by
      rw [dcount_eq_iff_definite _ _ _ (by omega), hwin, DefiniteB_revCompStr]
      exact hvdef
    have hin : 1 < inFull F (taskOf s) (u.length + 2) k := by
      unfold inFull
      have hcount : 2 ≤ LITERAL.countP
          (probeInB F (winAt (taskOf s) (u.length + 2) k)
            (prevAt (taskOf s) (u.length + 2))) := by
        apply countP_two _ (reverseChar c₁) (reverseChar c₂)
          (fun hc => hne (reverseChar_injective hc))
          (by rw [isDefinite_reverseChar]; exact h1)
          (by rw [isDefinite_reverseChar]; exact h2)
        · simp [probeInB, hprev']
        · have hrc2 : reverseChar c₂ :: revCompStr v = revCompStr (v ++ [c₂]) := by
            rw [revCompStr_append, revCompStr_singleton]
            rfl
          have hFrc : F (getCanonicalVal (reverseChar c₂ :: revCompStr v)) = true := by
            rw [hrc2, ← getCanonicalVal_revCompStr]
            exact hF
          simp [probeInB, hwin, hFrc]
      omega
    have hmark : u.length + 2 ∈ chunkMarks F k (taskOf s) := by
      rw [chunkMarks_mem _ _ _ _ hlen]
      exact ⟨hp1, hp2, hdw, (codeMarkB_iff _ _ _ _).mpr (Or.inl hin)⟩
    have hrec := orient_mem_recordOccs F k s (u.length + 2) hlen hp1 hp2 hmark
    refine ⟨_, mem_allRecs inputs F k s hsm _ hrec, ?_⟩
    rw [hwin, hprev']
    unfold orientOcc canonicalStr lexMin
    rw [revCompStr_revCompStr]
    by_cases hgt : lexCmp v (revCompStr v) = .gt
    · have hlt : lexCmp (revCompStr v) v = .lt := (lexCmp_gt_iff _ _).mp hgt
      rw [if_neg (by rw [hlt]; decide), if_pos hgt, if_pos hgt]
      exact ⟨rfl, reverseChar_reverseChar c₁⟩
    · have hlt : lexCmp v (revCompStr v) = .lt := by
        cases hc : lexCmp v (revCompStr v) with
        | lt => rfl
        | eq => exact absurd ((lexCmp_eq_iff _ _).mp hc) hnp
        | gt => exact absurd hc hgt
      have hgt2 : lexCmp (revCompStr v) v = .gt := by
        rw [lexCmp_gt_iff]
        exact hlt
      rw [if_pos hgt2, if_neg hgt, if_neg hgt]
      exact ⟨rfl, reverseChar_reverseChar c₁⟩

/-- A forward or reverse-strand sighting of the predecessor edge `c₁·v`, in
the presence of a second filter-visible predecessor edge `c₂·v`, yields an
occurrence record keyed by the canonical form of `v` whose
canonically-oriented predecessor flank is `c₁`. -/
theorem sighting_pred_record (inputs : List (List Char)) (F : Nat → Bool)
    (k : Nat) (v : List Char) (c₁ c₂ : Char) (hk : 1 ≤ k)
    (hv : v.length = k) (hvdef : DefiniteB v = true)
    (hnp : v ≠ revCompStr v) (h1 : isDefinite c₁ = true)
    (h2 : isDefinite c₂ = true) (hne : c₁ ≠ c₂)
    (hs : sightedB inputs (c₁ :: v) = true)
    (hF : F (getCanonicalVal (c₂ :: v)) = true) :
    ∃ r ∈ allRecs inputs F k, r.base = canonicalStr v ∧
      (if lexCmp v (revCompStr v) = .gt then reverseChar r.next else r.prev) =
        c₁ := by
  unfold sightedB at hs
  rw [List.any_eq_true] at hs
  obtain ⟨s, hsm, hor⟩ := hs
  rw [Bool.or_eq_true] at hor
  rcases hor with fwd | rev
  · obtain ⟨u, w, hw⟩ := (containsSub_iff _ _).mp fwd
    have hts : taskOf s = (('N' :: u) ++ [c₁]) ++ (v ++ (w ++ ['N'])) := by
      rw [taskOf, hw]
      simp
    obtain ⟨hwin, hnext, hprev, hp1, hp2, hlen⟩ :=
      window_decomp s (('N' :: u) ++ [c₁]) v (w ++ ['N']) k hts (by simp)
        (by simp) hv
    rw [show (('N' :: u) ++ [c₁]).length = u.length + 2 from by simp]
      at hwin hnext hprev hp1 hp2
    have hprev' : prevAt (taskOf s) (u.length + 2) = c₁ := by
      rw [hprev, show u.length + 2 - 1 = ('N' :: u).length from by simp]
      rw [List.getD_append_right _ _ _ _ (Nat.le_refl _)]
      simp
    have hdw : dcount (winAt (taskOf s) (u.length + 2) k) = k := by
      rw [dcount_eq_iff_definite _ _ _ (by omega), hwin]
      exact hvdef
    have hin : 1 < inFull F (taskOf s) (u.length + 2) k := by
      unfold inFull
      have hcount : 2 ≤ LITERAL.countP
          (probeInB F (winAt (taskOf s) (u.length + 2) k)
            (prevAt (taskOf s) (u.length + 2))) := by
        apply countP_two _ c₁ c₂ hne h1 h2
        · simp [probeInB, hprev']
        · simp [probeInB, hwin, hprev', hF]
      omega
    have hmark : u.length + 2 ∈ chunkMarks F k (taskOf s) := by
      rw [chunkMarks_mem _ _ _ _ hlen]
      exact ⟨hp1, hp2, hdw, (codeMarkB_iff _ _ _ _).mpr (Or.inl hin)⟩
    have hrec := orient_mem_recordOccs F k s (u.length + 2) hlen hp1 hp2 hmark
    refine ⟨_, mem_allRecs inputs F k s hsm _ hrec, ?_⟩
    rw [hwin, hprev']
    unfold orientOcc canonicalStr lexMin
    by_cases hgt : lexCmp v (revCompStr v) = .gt
    · rw [if_pos hgt, if_pos hgt, if_pos hgt]
      exact ⟨rfl, reverseChar_reverseChar c₁⟩
    · rw [if_neg hgt, if_neg hgt, if_neg hgt]
      exact ⟨rfl, rfl⟩
  · have h2s := containsSub_revCompStr _ _ rev
    have hrc : revCompStr (c₁ :: v) = revCompStr v ++ [reverseChar c₁] :=
      revCompStr_cons c₁ v
    rw [hrc] at h2s
    obtain ⟨u, w, hw⟩ := (containsSub_iff _ _).mp h2s
    have hts : taskOf s =
        ('N' :: u) ++ (revCompStr v ++ (reverseChar c₁ :: (w ++ ['N']))) := by
      rw [taskOf, hw]
      simp
    obtain ⟨hwin, hnext, hprev, hp1, hp2, hlen⟩ :=
      window_decomp s ('N' :: u) (revCompStr v)
        (reverseChar c₁ :: (w ++ ['N'])) k hts (by simp) (by simp)
        (by rw [length_revCompStr, hv])
    rw [show (reverseChar c₁ :: (w ++ ['N'])).getD 0 'N' = reverseChar c₁
      from rfl] at hnext
    rw [show ('N' :: u).length = u.length + 1 from by simp]
      at hwin hnext hprev hp1 hp2
    have hdw : dcount (winAt (taskOf s) (u.length + 1) k) = k := by
      rw [dcount_eq_iff_definite _ _ _ (by omega), hwin, DefiniteB_revCompStr]
      exact hvdef
    have hout : 1 < outFull F (taskOf s) (u.length + 1) k := by
      unfold outFull
      have hcount : 2 ≤ LITERAL.countP
          (probeOutB F (winAt (taskOf s) (u.length + 1) k)
            (nextAt (taskOf s) (u.length + 1) k)) := by
        apply countP_two _ (reverseChar c₁) (reverseChar c₂)
          (fun hc => hne (reverseChar_injective hc))
          (by rw [isDefinite_reverseChar]; exact h1)
          (by rw [isDefinite_reverseChar]; exact h2)
        · simp [probeOutB, hnext]
        · have hrc2 : revCompStr v ++ [reverseChar c₂] = revCompStr (c₂ :: v) :=
            (revCompStr_cons c₂ v).symm
          have hFrc : F (getCanonicalVal (revCompStr v ++ [reverseChar c₂])) =
              true := by
            rw [hrc2, ← getCanonicalVal_revCompStr]
            exact hF
          simp [probeOutB, hwin, hFrc]
      omega
    have hmark : u.length + 1 ∈ chunkMarks F k (taskOf s) := by
      rw [chunkMarks_mem _ _ _ _ hlen]
      exact ⟨hp1, hp2, hdw, (codeMarkB_iff _ _ _ _).mpr (Or.inr hout)⟩
    have hrec := orient_mem_recordOccs F k s (u.length + 1) hlen hp1 hp2 hmark
    refine ⟨_, mem_allRecs inputs F k s hsm _ hrec, ?_⟩
    rw [hwin, hnext]
    unfold orientOcc canonicalStr lexMin
    rw [revCompStr_revCompStr]
    by_cases hgt : lexCmp v (revCompStr v) = .gt
    · have hlt : lexCmp (revCompStr v) v = .lt := (lexCmp_gt_iff _ _).mp hgt
      rw [if_neg (by rw [hlt]; decide), if_pos hgt, if_pos hgt]
      exact ⟨rfl, reverseChar_reverseChar c₁⟩
    · have hlt : lexCmp v (revCompStr v) = .lt := by
        cases hc : lexCmp v (revCompStr v) with
        | lt => rfl
        | eq => exact absurd ((lexCmp_eq_iff _ _).mp hc) hnp
        | gt => exact absurd hc hgt
      have hgt2 : lexCmp (revCompStr v) v = .gt := by
        rw [lexCmp_gt_iff]
        exact hlt
      rw [if_pos hgt2, if_neg hgt, if_neg hgt]
      exact ⟨rfl, reverseChar_reverseChar c₁⟩

/-! ### The occurrence-set merge: firing the bifurcation flag -/

theorem lookupE_mem (m : List OccEntry) (b : List Char) (e : OccEntry)
    (h : lookupE m b = some e) : e ∈ m ∧ e.base = b := by
  induction m with
  | nil => simp [lookupE] at h
  | cons x xs ih =>
    rw [lookupE] at h
    by_cases hx : x.base = b
    · rw [if_pos hx, Option.some.injEq] at h
      subst h
      exact ⟨List.mem_cons_self _ _, hx⟩
    · rw [if_neg hx] at h
      obtain ⟨hm, hb⟩ := ih h
      exact ⟨List.mem_cons_of_mem _ hm, hb⟩

theorem lookupE_append_some (m l : List OccEntry) (b : List Char)
    (e : OccEntry) (h : lookupE m b = some e) :
    lookupE (m ++ l) b = some e := by
  induction m with
  | nil => simp [lookupE] at h
  | cons x xs ih =>
    rw [lookupE] at h
    rw [List.cons_append, lookupE]
    by_cases hx : x.base = b
    · rw [if_pos hx] at h ⊢
      exact h
    · rw [if_neg hx] at h ⊢
      exact ih h

theorem lookupE_append_none (m : List OccEntry) (b : List Char)
    (x : OccEntry) (h : lookupE m b = none) :
    lookupE (m ++ [x]) b = if x.base = b then some x else none := by
  induction m with
  | nil => simp [lookupE]
  | cons y ys ih =>
    rw [lookupE] at h
    rw [List.cons_append, lookupE]
    by_cases hy : y.base = b
    · rw [if_pos hy] at h
      simp at h
    · rw [if_neg hy] at h ⊢
      exact ih h

theorem lookupE_setBif (m : List OccEntry) (b b' : List Char) :
    lookupE (setBif m b') b = (lookupE m b).map
      (fun e => if e.base = b' then ⟨e.base, e.prev, e.next, true⟩ else e) := by
  induction m with
  | nil => rfl
  | cons x xs ih =>
    have hfb : (if x.base = b' then
        (⟨x.base, x.prev, x.next, true⟩ : OccEntry) else x).base = x.base := by
      split_ifs <;> rfl
    simp only [setBif, List.map_cons] at ih ⊢
    rw [lookupE, lookupE, hfb]
    by_cases hx : x.base = b
    · rw [if_pos hx, if_pos hx]
      rfl
    · rw [if_neg hx, if_neg hx]
      exact ih

theorem occInsert_keep (m : List OccEntry) (o : OccIns) (b : List Char)
    (e : OccEntry) (h : lookupE m b = some e) :
    ∃ e', lookupE (occInsert m o) b = some e' ∧ e'.prev = e.prev ∧
      e'.next = e.next ∧ (e.isBif = true → e'.isBif = true) := by
  cases hlo : lookupE m o.base with
  | none =>
    simp only [occInsert, hlo]
    exact ⟨e, lookupE_append_some m _ b e h, rfl, rfl, fun hb => hb⟩
  | some e₂ =>
    simp only [occInsert, hlo]
    by_cases hb2 : e₂.isBif = true
    · rw [if_pos hb2]
      exact ⟨e, h, rfl, rfl, fun hb => hb⟩
    · rw [if_neg hb2]
      by_cases hf : fireCond e₂ o = true
      · rw [if_pos hf, lookupE_setBif, h]
        refine ⟨if e.base = o.base then ⟨e.base, e.prev, e.next, true⟩ else e,
          rfl, ?_, ?_, ?_⟩
        · split_ifs <;> rfl
        · split_ifs <;> rfl
        · split_ifs <;> intro hb
          · rfl
          · exact hb
      · rw [if_neg hf]
        exact ⟨e, h, rfl, rfl, fun hb => hb⟩

theorem occInsert_fire (m : List OccEntry) (o : OccIns) (b : List Char)
    (e : OccEntry) (h : lookupE m b = some e) (hob : o.base = b)
    (hmis : o.prev ≠ e.prev ∨ o.next ≠ e.next) :
    ∃ e', lookupE (occInsert m o) b = some e' ∧ e'.isBif = true := by
  have hlo : lookupE m o.base = some e := by
    rw [hob]
    exact h
  simp only [occInsert, hlo]
  by_cases hb2 : e.isBif = true
  · rw [if_pos hb2]
    exact ⟨e, h, hb2⟩
  · rw [if_neg hb2]
    have hf : fireCond e o = true := by
      unfold fireCond
      rcases hmis with hp | hn
      · have hbne : (e.prev != o.prev) = true := by
          rw [bne_iff_ne]
          exact fun hq => hp hq.symm
        simp [hbne]
      · have hbne : (e.next != o.next) = true := by
          rw [bne_iff_ne]
          exact fun hq => hn hq.symm
        simp [hbne]
    rw [if_pos hf, lookupE_setBif, h]
    have hbase : e.base = o.base := by
      rw [hob]
      exact (lookupE_mem m b e h).2
    refine ⟨⟨e.base, e.prev, e.next, true⟩, ?_, rfl⟩
    simp [hbase]

theorem occInsert_create (m : List OccEntry) (o : OccIns) (b : List Char)
    (h : lookupE m b = none) :
    lookupE (occInsert m o) b =
      if o.base = b then some ⟨o.base, o.prev, o.next, false⟩ else none := by
  cases hlo : lookupE m o.base with
  | none =>
    simp only [occInsert, hlo]
    rw [lookupE_append_none m b _ h]
  | some e₂ =>
    have hob : o.base ≠ b := by
      intro hq
      rw [hq, h] at hlo
      exact Option.noConfusion hlo
    simp only [occInsert, hlo]
    rw [if_neg hob]
    by_cases hb2 : e₂.isBif = true
    · rw [if_pos hb2]
      exact h
    · rw [if_neg hb2]
      by_cases hf : fireCond e₂ o = true
      · rw [if_pos hf, lookupE_setBif, h]
        rfl
      · rw [if_neg hf]
        exact h

theorem fold_keeps (L : List OccIns) (m : List OccEntry) (b : List Char)
    (e : OccEntry) (h : lookupE m b = some e) :
    ∃ e', lookupE (L.foldl occInsert m) b = some e' ∧ e'.prev = e.prev ∧
      e'.next = e.next ∧ (e.isBif = true → e'.isBif = true) := by
  induction L generalizing m e with
  | nil => exact ⟨e, h, rfl, rfl, fun hb => hb⟩
  | cons o T ih =>
    rw [List.foldl_cons]
    obtain ⟨e₁, h₁, hp₁, hn₁, hb₁⟩ := occInsert_keep m o b e h
    obtain ⟨e₂, h₂, hp₂, hn₂, hb₂⟩ := ih (occInsert m o) e₁ h₁
    exact ⟨e₂, h₂, hp₂.trans hp₁, hn₂.trans hn₁, fun hb => hb₂ (hb₁ hb)⟩

theorem fold_fire (L : List OccIns) (m : List OccEntry) (b : List Char)
    (e : OccEntry) (h : lookupE m b = some e)
    (hex : ∃ r ∈ L, r.base = b ∧ (r.prev ≠ e.prev ∨ r.next ≠ e.next)) :
    ∃ e', lookupE (L.foldl occInsert m) b = some e' ∧ e'.isBif = true := by
  induction L generalizing m e with
  | nil =>
    obtain ⟨r, hr, _⟩ := hex
    cases hr
  | cons o T ih =>
    rw [List.foldl_cons]
    obtain ⟨r, hr, hrb, hmis⟩ := hex
    rcases List.mem_cons.mp hr with hro | hrT
    · obtain ⟨e₁, h₁, hb₁⟩ :=
        occInsert_fire m o b e h (hro ▸ hrb) (hro ▸ hmis)
      obtain ⟨e₂, h₂, _, _, hbk⟩ := fold_keeps T (occInsert m o) b e₁ h₁
      exact ⟨e₂, h₂, hbk hb₁⟩
    · obtain ⟨e₁, h₁, hp₁, hn₁, _⟩ := occInsert_keep m o b e h
      exact ih (occInsert m o) e₁ h₁
        ⟨r, hrT, hrb, by rw [hp₁, hn₁]; exact hmis⟩

theorem fold_create (L : List OccIns) (m : List OccEntry) (b : List Char)
    (r₁ r₂ : OccIns) (h : lookupE m b = none) (h1 : r₁ ∈ L) (h2 : r₂ ∈ L)
    (hb1 : r₁.base = b) (hb2 : r₂.base = b)
    (hmis : r₁.prev ≠ r₂.prev ∨ r₁.next ≠ r₂.next) :
    ∃ e', lookupE (L.foldl occInsert m) b = some e' ∧ e'.isBif = true := by
  induction L generalizing m with
  | nil => cases h1
  | cons o T ih =>
    rw [List.foldl_cons]
    have hstep := occInsert_create m o b h
    by_cases hob : o.base = b
    · rw [if_pos hob] at hstep
      by_cases hm1 : r₁.prev ≠ o.prev ∨ r₁.next ≠ o.next
      · have h1T : r₁ ∈ T := by
          rcases List.mem_cons.mp h1 with hro | hT
          · rw [hro] at hm1
            rcases hm1 with hc | hc <;> exact absurd rfl hc
          · exact hT
        exact fold_fire T (occInsert m o) b ⟨o.base, o.prev, o.next, false⟩
          hstep ⟨r₁, h1T, hb1, hm1⟩
      · push_neg at hm1
        have hm2 : r₂.prev ≠ o.prev ∨ r₂.next ≠ o.next := by
          rcases hmis with hc | hc
          · exact Or.inl fun hq => hc (hm1.1.trans hq.symm)
          · exact Or.inr fun hq => hc (hm1.2.trans hq.symm)
        have h2T : r₂ ∈ T := by
          rcases List.mem_cons.mp h2 with hro | hT
          · rw [hro] at hm2
            rcases hm2 with hc | hc <;> exact absurd rfl hc
          · exact hT
        exact fold_fire T (occInsert m o) b ⟨o.base, o.prev, o.next, false⟩
          hstep ⟨r₂, h2T, hb2, hm2⟩
    · rw [if_neg hob] at hstep
      have h1T : r₁ ∈ T := by
        rcases List.mem_cons.mp h1 with hro | hT
        · rw [hro] at hb1
          exact absurd hb1 hob
        · exact hT
      have h2T : r₂ ∈ T := by
        rcases List.mem_cons.mp h2 with hro | hT
        · rw [hro] at hb2
          exact absurd hb2 hob
        · exact hT
      exact ih (occInsert m o) hstep h1T h2T

theorem mem_trueBifurcations (m : List OccEntry) (b : List Char)
    (e : OccEntry) (h : lookupE m b = some e) (hb : e.isBif = true) :
    b ∈ trueBifurcations m := by
  obtain ⟨hm, hbase⟩ := lookupE_mem m b e h
  unfold trueBifurcations
  rw [List.mem_map]
  exact ⟨e, List.mem_filter.mpr ⟨hm, hb⟩, hbase⟩

theorem DefiniteB_cons_of (c : Char) (v : List Char)
    (hc : isDefinite c = true) (hv : DefiniteB v = true) :
    DefiniteB (c :: v) = true := by
  simp [DefiniteB] at hv ⊢
  exact ⟨hc, hv⟩

theorem DefiniteB_append_single (v : List Char) (c : Char)
    (hv : DefiniteB v = true) (hc : isDefinite c = true) :
    DefiniteB (v ++ [c]) = true := by
  simp [DefiniteB] at hv ⊢
  exact ⟨hv, hc⟩

/-- C1: amended — every *non-palindromic* true branching k-mer of the input
set (a definite k-mer with at least two distinct definite predecessor bases
or at least two distinct definite successor bases, counted over both
strands) is reported as a junction by the pipeline, provided the edge
filter contains every canonical (k+1)-mer value inserted by Pass 1a.  A
k-mer equal to its own reverse complement can be missed (see the recorded
counterexample), so the claim's unqualified "every branching vertex"
is too strong. -/
theorem c1_true_branching_reported (inputs : List (List Char))
    (F : Nat → Bool) (k : Nat) (v : List Char)
    (hnp : v ≠ revCompStr v)
    (hFs : ∀ s ∈ inputs, ∀ val ∈ fillerVals k (taskOf s), F val = true)
    (hbr : TrueBranchingB inputs k v = true) :
    canonicalStr v ∈ reported inputs F k := by
  simp only [TrueBranchingB, Bool.and_eq_true, Bool.or_eq_true,
    decide_eq_true_eq] at hbr
  obtain ⟨⟨hv, hvdef⟩, hcnt⟩ := hbr
  have hk : 1 ≤ k := by
    by_contra hk0
    have hk0' : k = 0 := by omega
    subst hk0'
    have hnil : v = [] := List.eq_nil_of_length_eq_zero hv
    subst hnil
    exact hnp rfl
  rcases hcnt with hpred | hsucc
  · obtain ⟨c₁, c₂, hne, h1, h2, hP1, hP2⟩ := two_of_countP _ hpred
    have hF2 : F (getCanonicalVal (c₂ :: v)) = true :=
      sighted_F inputs F k (c₂ :: v) hk (by simp [hv])
        (DefiniteB_cons_of c₂ v h2 hvdef) hFs hP2
    have hF1 : F (getCanonicalVal (c₁ :: v)) = true :=
      sighted_F inputs F k (c₁ :: v) hk (by simp [hv])
        (DefiniteB_cons_of c₁ v h1 hvdef) hFs hP1
    obtain ⟨r₁, hr₁m, hr₁b, hr₁c⟩ := sighting_pred_record inputs F k v c₁ c₂
      hk hv hvdef hnp h1 h2 hne hP1 hF2
    obtain ⟨r₂, hr₂m, hr₂b, hr₂c⟩ := sighting_pred_record inputs F k v c₂ c₁
      hk hv hvdef hnp h2 h1 (Ne.symm hne) hP2 hF1
    have hmis : r₁.prev ≠ r₂.prev ∨ r₁.next ≠ r₂.next := by
      by_cases hgt : lexCmp v (revCompStr v) = .gt
      · rw [if_pos hgt] at hr₁c hr₂c
        right
        intro hq
        apply hne
        rw [← hr₁c, ← hr₂c, hq]
      · rw [if_neg hgt] at hr₁c hr₂c
        left
        intro hq
        apply hne
        rw [← hr₁c, ← hr₂c, hq]
    unfold reported occMapOf
    obtain ⟨e', he', hbif⟩ := fold_create (allRecs inputs F k) []
      (canonicalStr v) r₁ r₂ rfl hr₁m hr₂m hr₁b hr₂b hmis
    exact mem_trueBifurcations _ _ e' he' hbif
  · obtain ⟨c₁, c₂, hne, h1, h2, hP1, hP2⟩ := two_of_countP _ hsucc
    have hF2 : F (getCanonicalVal (v ++ [c₂])) = true :=
      sighted_F inputs F k (v ++ [c₂]) hk (by simp [hv])
        (DefiniteB_append_single v c₂ hvdef h2) hFs hP2
    have hF1 : F (getCanonicalVal (v ++ [c₁])) = true :=
      sighted_F inputs F k (v ++ [c₁]) hk (by simp [hv])
        (DefiniteB_append_single v c₁ hvdef h1) hFs hP1
    obtain ⟨r₁, hr₁m, hr₁b, hr₁c⟩ := sighting_succ_record inputs F k v c₁ c₂
      hk hv hvdef hnp h1 h2 hne hP1 hF2
    obtain ⟨r₂, hr₂m, hr₂b, hr₂c⟩ := sighting_succ_record inputs F k v c₂ c₁
      hk hv hvdef hnp h2 h1 (Ne.symm hne) hP2 hF1
    have hmis : r₁.prev ≠ r₂.prev ∨ r₁.next ≠ r₂.next := by
      by_cases hgt : lexCmp v (revCompStr v) = .gt
      · rw [if_pos hgt] at hr₁c hr₂c
        left
        intro hq
        apply hne
        rw [← hr₁c, ← hr₂c, hq]
      · rw [if_neg hgt] at hr₁c hr₂c
        right
        intro hq
        apply hne
        rw [← hr₁c, ← hr₂c, hq]
    unfold reported occMapOf
    obtain ⟨e', he', hbif⟩ := fold_create (allRecs inputs F k) []
      (canonicalStr v) r₁ r₂ rfl hr₁m hr₂m hr₁b hr₂b hmis
    exact mem_trueBifurcations _ _ e' he' hbif

/-- Counterexample to the unqualified claim: in the single input `CATC`
with `k = 2`, the k-mer `AT` is a true branching vertex (predecessors `C`
and reverse-strand `G`), it equals its own reverse complement, and the
pipeline reports nothing at all — even with a filter that answers `true`
for every probe.  The palindromic window's two strand readings merge into
one occurrence record, so the flag never fires. -/
theorem c1_palindrome_counterexample :
    TrueBranchingB [['C','A','T','C']] 2 ['A','T'] = true ∧
    ['A','T'] = revCompStr ['A','T'] ∧
    (∀ s ∈ [['C','A','T','C']], ∀ val ∈ fillerVals 2 (taskOf s),
      (fun _ => true : Nat → Bool) val = true) ∧
    canonicalStr ['A','T'] ∉
      reported [['C','A','T','C']] (fun _ => true) 2 := by
  decide

theorem c1_witness :
    canonicalStr ['A','C','G'] ∈
      reported [['A','C','G','T'], ['A','C','G','A']] (fun _ => true) 3 :=
  c1_true_branching_reported [['A','C','G','T'], ['A','C','G','A']]
    (fun _ => true) 3 ['A','C','G'] (by decide) (by decide) (by decide)

/-! ## Claim C10: missing candidate-mask files abort the run -/

theorem reportErr_ne_none (slot : Option (Nat × Nat × Nat))
    (e : Nat × Nat × Nat) : reportErr slot e ≠ none := by
  unfold reportErr
  split_ifs with h
  · simp
  · exact h

theorem pass2ErrSlot_step_preserves (st : List ((Nat × Nat × Nat) × List Nat))
    (k round : Nat) (ts : List MTask) :
    ∀ slot : Option (Nat × Nat × Nat), slot ≠ none →
    ts.foldl
      (fun slot t =>
        if k + 2 ≤ t.str.length then
          match storeLookup st (maskKey t.seqId t.start round) with
          | some _ => slot
          | none => reportErr slot (maskKey t.seqId t.start round)
        else slot)
      slot ≠ none := by
  induction ts with
  | nil => intro slot h; exact h
  | cons a ts ih =>
    intro slot h
    rw [List.foldl_cons]
    apply ih
    split_ifs with hl
    · cases storeLookup st (maskKey a.seqId a.start round) with
      | none => exact reportErr_ne_none _ _
      | some _ => exact h
    · exact h

theorem pass2Fold_ne_none (st : List ((Nat × Nat × Nat) × List Nat))
    (k round : Nat) (ts : List MTask) (t : MTask) (ht : t ∈ ts)
    (hlen : k + 2 ≤ t.str.length)
    (hmiss : storeLookup st (maskKey t.seqId t.start round) = none) :
    ∀ slot : Option (Nat × Nat × Nat),
    ts.foldl
      (fun slot t =>
        if k + 2 ≤ t.str.length then
          match storeLookup st (maskKey t.seqId t.start round) with
          | some _ => slot
          | none => reportErr slot (maskKey t.seqId t.start round)
        else slot)
      slot ≠ none := by
  induction ts generalizing t with
  | nil => cases ht
  | cons a ts ih =>
    intro slot
    rw [List.foldl_cons]
    rcases List.mem_cons.mp ht with rfl | hmem
    · rw [if_pos hlen, hmiss]
      exact pass2ErrSlot_step_preserves st k round ts _ (reportErr_ne_none _ _)
    · exact ih t hmem hlen hmiss _

theorem pass2ErrSlot_ne_none (st : List ((Nat × Nat × Nat) × List Nat))
    (k round : Nat) (ts : List MTask) (t : MTask) (ht : t ∈ ts)
    (hlen : k + 2 ≤ t.str.length)
    (hmiss : storeLookup st (maskKey t.seqId t.start round) = none) :
    pass2ErrSlot st k round ts ≠ none :=
  pass2Fold_ne_none st k round ts t ht hlen hmiss none

theorem pass1bWrites_lookup_none (F : Nat → Bool) (k round : Nat)
    (ts : List MTask) (t : MTask)
    (huniq : ∀ t' ∈ ts, t'.seqId = t.seqId → t'.start = t.start →
      chunkMarks F k t'.str = []) :
    storeLookup (pass1bWrites F k round ts) (maskKey t.seqId t.start round) =
      none := by
  unfold storeLookup
  rw [Option.map_eq_none']
  rw [List.find?_eq_none]
  intro entry hmem
  obtain ⟨t', hmem', hsome⟩ := List.mem_filterMap.mp hmem
  by_cases hc : k + 2 ≤ t'.str.length ∧ chunkMarks F k t'.str ≠ []
  · rw [if_pos hc] at hsome
    have hentry := (Option.some_inj.mp hsome).symm
    intro hbeq
    have h1 : entry.1 = maskKey t.seqId t.start round := by
      simpa using hbeq
    rw [hentry] at h1
    simp only [maskKey, Prod.mk.injEq] at h1
    exact hc.2 (huniq t' hmem' h1.1 h1.2.1)
  · rw [if_neg hc] at hsome
    cases hsome

/-- C10: Pass 1b writes the candidate-mask temp file
`<seqId>_<start>_<round>.tmp` for a chunk only when the chunk has at least
one candidate position, while Pass 2 and the emission pass unconditionally
attempt to read that file for every chunk of length at least `k + 2`; when
the chunk has no candidate positions (and no other chunk shares its file
name), the read targets a file that was never created, the resulting error
is captured into the shared first-error-wins slot, and the run aborts at
the stage join. -/
theorem c10_missing_mask_aborts (F : Nat → Bool) (k round rounds : Nat)
    (ts : List MTask) (t : MTask) (ht : t ∈ ts)
    (hlen : k + 2 ≤ t.str.length) (hmarks : chunkMarks F k t.str = [])
    (huniq : ∀ t' ∈ ts, t'.seqId = t.seqId → t'.start = t.start →
      chunkMarks F k t'.str = [])
    (hr : round < rounds) :
    storeLookup (pass1bWrites F k round ts) (maskKey t.seqId t.start round) =
      none ∧
    maskKey t.seqId t.start round ∈ pass2Reads k round ts ∧
    maskKey t.seqId t.start round ∈ emissionReads k rounds ts ∧
    pass2ErrSlot (pass1bWrites F k round ts) k round ts ≠ none ∧
    ∃ e, stageJoin (pass2ErrSlot (pass1bWrites F k round ts) k round ts) =
      .error e := by
  have hnone := pass1bWrites_lookup_none F k round ts t huniq
  have hslot := pass2ErrSlot_ne_none _ k round ts t ht hlen hnone
  refine ⟨hnone, ?_, ?_, hslot, ?_⟩
  · exact List.mem_filterMap.mpr ⟨t, ht, by rw [if_pos hlen]⟩
  · apply List.mem_flatten.mpr
    refine ⟨(List.range rounds).map fun i => maskKey t.seqId t.start i, ?_, ?_⟩
    · apply List.mem_map.mpr
      exact ⟨t, ht, by rw [if_pos hlen]⟩
    · exact List.mem_map.mpr ⟨round, List.mem_range.mpr hr, rfl⟩
  · cases hs : pass2ErrSlot (pass1bWrites F k round ts) k round ts with
    | none => exact absurd hs hslot
    | some e => exact ⟨e, rfl⟩

/-- C10 witness: a single all-definite chunk `AAAAA` with an empty filter
has no candidate positions (`inCount = outCount = 1` at its only window);
Pass 1b writes nothing, Pass 2's read fails and the run aborts. -/
theorem c10_witness :
    (⟨0, 0, ['A', 'A', 'A', 'A', 'A']⟩ : MTask) ∈
      [(⟨0, 0, ['A', 'A', 'A', 'A', 'A']⟩ : MTask)] ∧
    chunkMarks (fun _ => false) 3 ['A', 'A', 'A', 'A', 'A'] = [] ∧
    (storeLookup
        (pass1bWrites (fun _ => false) 3 0
          [⟨0, 0, ['A', 'A', 'A', 'A', 'A']⟩])
        (maskKey 0 0 0) = none ∧
      maskKey 0 0 0 ∈ pass2Reads 3 0 [⟨0, 0, ['A', 'A', 'A', 'A', 'A']⟩] ∧
      maskKey 0 0 0 ∈ emissionReads 3 1 [⟨0, 0, ['A', 'A', 'A', 'A', 'A']⟩] ∧
      pass2ErrSlot
          (pass1bWrites (fun _ => false) 3 0
            [⟨0, 0, ['A', 'A', 'A', 'A', 'A']⟩]) 3 0
          [⟨0, 0, ['A', 'A', 'A', 'A', 'A']⟩] ≠ none ∧
      ∃ e, stageJoin
          (pass2ErrSlot
            (pass1bWrites (fun _ => false) 3 0
              [⟨0, 0, ['A', 'A', 'A', 'A', 'A']⟩]) 3 0
            [⟨0, 0, ['A', 'A', 'A', 'A', 'A']⟩]) = .error e) :=
  ⟨by decide, by decide,
    c10_missing_mask_aborts (fun _ => false) 3 0 1
      [⟨0, 0, ['A', 'A', 'A', 'A', 'A']⟩] ⟨0, 0, ['A', 'A', 'A', 'A', 'A']⟩
      (by decide) (by decide) (by decide) (by decide) (by decide)⟩

end TwoPaCo
